import Mathlib

/-!
# Similar-words grouping (`solution.cpp`)

A shallow embedding of `solution.cpp` and proofs about it.

Modelling conventions.

* A `char` is its unsigned byte value, a `Nat`; a `std::string` is a `List Nat`.
  `std::isalpha` / `std::tolower` are those of the default "C" locale.
* `std::vector<T>` is `List T`; an index is a `Nat`.
* `int` values (ids, sizes, positions, counts) are `Nat`; the window `K`, which may be
  negative, is an `Int`.  Every `int` the program computes is bounded by the number of
  tokens, which is assumed to fit an `int`, so no `% 2^32` appears.
* `std::unordered_map<K, V>` is an association list with unique keys (`lookup`,
  `try_emplace`, `assign`); where the program iterates over a map, the list order
  (insertion order) stands for the unspecified iteration order.
* `DSU::find` is recursive; it is modelled with fuel `parent.size()` and returns `none`
  when the fuel runs out or an index is out of range.  Everything that calls it is
  therefore `Option`-valued, `none` meaning "no defined result".
* `std::sort` is modelled by insertion sort under the program's comparator.
-/

namespace Solution

/-! ## Association lists standing for `std::unordered_map` -/

/-- The call `m.find(k)`: the value stored under `k`, if any. -/
def lookup {κ ν : Type} [DecidableEq κ] (k : κ) : List (κ × ν) → Option ν
  | [] => none
  | e :: m => if e.1 = k then some e.2 else lookup k m

/-- The assignment `m[k] = v`: overwrite the value under `k`, or insert the pair when `k` is new. -/
def assign {κ ν : Type} [DecidableEq κ] (k : κ) (v : ν) : List (κ × ν) → List (κ × ν)
  | [] => [(k, v)]
  | e :: m => if e.1 = k then (k, v) :: m else e :: assign k v m

/-- The call `m.try_emplace(k, v)`: returns the map, `it->second` and `inserted`. -/
def try_emplace {κ ν : Type} [DecidableEq κ] (m : List (κ × ν)) (k : κ) (v : ν) :
    List (κ × ν) × ν × Bool :=
  match lookup k m with
  | some v0 => (m, v0, false)
  | none => (assign k v m, v, true)

/-! ## `struct DSU` -/

/-- The two vectors of `struct DSU`. -/
structure DSU where
  parent : List Nat
  size : List Nat
deriving DecidableEq

/-- The constructor `DSU::DSU(int n)`: `parent = [0, 1, .., n-1]`, `size = [1, .., 1]`. -/
def DSU.new (n : Nat) : DSU :=
  { parent := List.range n, size := List.replicate n 1 }

/-- The recursion of `DSU::find` on the `parent` vector, with fuel. -/
def DSU.findAux : Nat → List Nat → Nat → Option (List Nat × Nat)
  | 0, _, _ => none
  | fuel + 1, parent, i =>
    match parent[i]? with
    | none => none
    | some pi =>
      if pi = i then some (parent, i)
      else
        match DSU.findAux fuel parent pi with
        | none => none
        | some (parent1, r) => some (parent1.set i r, r)

/-- The method `DSU::find(i)`: the root of `i` and the state after path compression. -/
def DSU.find (d : DSU) (i : Nat) : Option (DSU × Nat) :=
  match DSU.findAux d.parent.length d.parent i with
  | none => none
  | some (parent1, r) => some ({ d with parent := parent1 }, r)

/-- The method `DSU::unite(i, j)`: link the root of the smaller tree under the other. -/
def DSU.unite (d : DSU) (i j : Nat) : Option DSU :=
  match d.find i with
  | none => none
  | some (d1, root_i) =>
    match d1.find j with
    | none => none
    | some (d2, root_j) =>
      if root_i ≠ root_j then
        let ri := if d2.size.getD root_i 0 < d2.size.getD root_j 0 then root_j else root_i
        let rj := if d2.size.getD root_i 0 < d2.size.getD root_j 0 then root_i else root_j
        some { parent := d2.parent.set rj ri
               size := d2.size.set ri (d2.size.getD ri 0 + d2.size.getD rj 0) }
      else some d2

/-- The value `dsu.find(i)` returns, the state it leaves aside. -/
def DSU.root (d : DSU) (i : Nat) : Option Nat :=
  (d.find i).map Prod.snd

/-! ## `normalize` -/

/-- The function `std::isalpha` in the "C" locale: `A`..`Z` or `a`..`z`. -/
def isalpha (c : Nat) : Bool :=
  (65 ≤ c && c ≤ 90) || (97 ≤ c && c ≤ 122)

/-- The function `std::tolower` in the "C" locale. -/
def tolower (c : Nat) : Nat :=
  if 65 ≤ c ∧ c ≤ 90 then c + 32 else c

/-- One round of the loop of `normalize`: what character `c` appends to `out`. -/
def normalizeStep (out : List Nat) (c : Nat) : List Nat :=
  if isalpha c then out ++ [tolower c]
  else if c = 39 then out ++ [c]
  else out

/-- The function `normalize(s)`. -/
def normalize (s : List Nat) : List Nat :=
  s.foldl normalizeStep []

/-! ## `main` -/

/-- The `operator<` of `std::string`: lexicographic on the byte values, a proper prefix
being smaller. -/
def strLt : List Nat → List Nat → Bool
  | _, [] => false
  | [], _ :: _ => true
  | a :: as, b :: bs => if a < b then true else if b < a then false else strLt as bs

/-- The variables the input loop of `main` fills. -/
structure Vocab where
  wordlist : List (List Nat)
  word_to_id : List (List Nat × Nat)
  text_ids : List Nat
deriving DecidableEq

/-- One round of `while (std::cin >> buf)`. -/
def readStep (v : Vocab) (buf : List Nat) : Vocab :=
  let w := normalize buf
  if w = [] then v
  else
    let r := try_emplace v.word_to_id w v.wordlist.length
    { wordlist := if r.2.2 then v.wordlist ++ [w] else v.wordlist
      word_to_id := r.1
      text_ids := v.text_ids ++ [r.2.1] }

/-- The input loop of `main` over the whitespace-separated tokens after `K`. -/
def readInput (tokens : List (List Nat)) : Vocab :=
  tokens.foldl readStep { wordlist := [], word_to_id := [], text_ids := [] }

/-- The state of the Equivalence Builder loop: `mask_map` and `dsu`. -/
structure Builder where
  mask_map : List (List Nat × Nat)
  dsu : DSU
deriving DecidableEq

/-- One round of the inner loop `for j` of the builder: mask position `j` of `s`. -/
def maskStep (i : Nat) (s : List Nat) (b : Builder) (j : Nat) : Option Builder :=
  let temp := s.set j 42
  let r := try_emplace b.mask_map temp i
  if r.2.2 then some { b with mask_map := r.1 }
  else
    match b.dsu.unite i r.2.1 with
    | none => none
    | some d => some { mask_map := r.1, dsu := d }

/-- The suffix-trim check for the form `s` of id `i`. -/
def suffixStep (word_to_id : List (List Nat × Nat)) (i : Nat) (s : List Nat)
    (b : Builder) : Option Builder :=
  let last := s.getD (s.length - 1) 0
  if last = 115 ∨ last = 101 then
    let base := s.take (s.length - 1)
    if base.length > 1 then
      match lookup base word_to_id with
      | some id =>
        match b.dsu.unite i id with
        | none => none
        | some d => some { b with dsu := d }
      | none => some b
    else some b
  else some b

/-- One round of the outer loop `for i` of the builder. -/
def builderStep (v : Vocab) (b : Builder) (i : Nat) : Option Builder :=
  let s := v.wordlist.getD i []
  if s.length ≤ 1 then some b
  else
    match (List.range s.length).foldlM (maskStep i s) b with
    | none => none
    | some b1 => suffixStep v.word_to_id i s b1

/-- The Equivalence Builder loop, from a fresh `DSU` and an empty `mask_map`. -/
def buildClusters (v : Vocab) : Option Builder :=
  (List.range v.wordlist.length).foldlM (builderStep v)
    { mask_map := [], dsu := DSU.new v.wordlist.length }

/-- One round of the loop that fills `positions`. -/
def groupStep (text_ids : List Nat) (st : DSU × List (List Nat)) (p : Nat) :
    Option (DSU × List (List Nat)) :=
  match st.1.find (text_ids.getD p 0) with
  | none => none
  | some (d, root) => some (d, st.2.set root (st.2.getD root [] ++ [p]))

/-- The loop that fills `positions` (one list of text positions per root). -/
def groupPositions (d : DSU) (n : Nat) (text_ids : List Nat) :
    Option (DSU × List (List Nat)) :=
  (List.range text_ids.length).foldlM (groupStep text_ids) (d, List.replicate n [])

/-- One round of the loop `for k` of the scorer on the position list `pos`. -/
def freqStep (K : Int) (pos : List Nat) (freq : Nat) (k : Nat) : Nat :=
  let ok1 : Bool := decide (k > 0 ∧ (pos.getD k 0 : Int) - (pos.getD (k - 1) 0 : Int) ≤ K)
  let ok2 : Bool :=
    decide (k < pos.length - 1 ∧ (pos.getD (k + 1) 0 : Int) - (pos.getD k 0 : Int) ≤ K)
  if ok1 || ok2 then freq + 1 else freq

/-- The value of `freq` after the scorer has gone through the position list `pos`. -/
def freqOf (K : Int) (pos : List Nat) : Nat :=
  if pos.length > 1 then (List.range pos.length).foldl (freqStep K pos) 0 else 0

/-- One round of the loop that fills `group_freq`. -/
def scoreStep (K : Int) (positions : List (List Nat)) (group_freq : List (Nat × Nat))
    (i : Nat) : List (Nat × Nat) :=
  let pos := positions.getD i []
  if pos = [] then group_freq
  else if freqOf K pos > 0 then assign i (freqOf K pos) group_freq
  else group_freq

/-- The loop that fills `group_freq`. -/
def scoreClusters (K : Int) (n : Nat) (positions : List (List Nat)) : List (Nat × Nat) :=
  (List.range n).foldl (scoreStep K positions) []

/-- One round of the loop that fills `group_reps`. -/
def repStep (wordlist : List (List Nat)) (group_freq : List (Nat × Nat))
    (st : DSU × List (Nat × List Nat)) (i : Nat) : Option (DSU × List (Nat × List Nat)) :=
  match st.1.find i with
  | none => none
  | some (d, root) =>
    if (lookup root group_freq).isSome then
      match lookup root st.2 with
      | none => some (d, assign root (wordlist.getD i []) st.2)
      | some cur =>
        if strLt (wordlist.getD i []) cur then some (d, assign root (wordlist.getD i []) st.2)
        else some (d, st.2)
    else some (d, st.2)

/-- The loop that fills `group_reps`. -/
def pickReps (d : DSU) (wordlist : List (List Nat)) (group_freq : List (Nat × Nat)) :
    Option (DSU × List (Nat × List Nat)) :=
  (List.range wordlist.length).foldlM (repStep wordlist group_freq) (d, [])

/-- The record `struct GroupResult`. -/
structure GroupResult where
  rep : List Nat
  count : Nat
deriving DecidableEq

/-- The record pushed for one entry of `group_freq`. -/
def mkResult (group_reps : List (Nat × List Nat)) (e : Nat × Nat) : GroupResult :=
  { rep := (lookup e.1 group_reps).getD [], count := e.2 }

/-- The loop that builds `results` from `group_freq`. -/
def buildResults (group_freq : List (Nat × Nat)) (group_reps : List (Nat × List Nat)) :
    List GroupResult :=
  group_freq.map (mkResult group_reps)

/-- The comparator handed to `std::sort`. -/
def cmp (a b : GroupResult) : Bool :=
  if a.count ≠ b.count then decide (a.count > b.count) else strLt a.rep b.rep

/-- Insertion of one record into a sorted list, before the first record it precedes. -/
def insertResult (x : GroupResult) : List GroupResult → List GroupResult
  | [] => [x]
  | y :: l => if cmp x y then x :: y :: l else y :: insertResult x l

/-- The call `std::sort(results.begin(), results.end(), cmp)`. -/
def sortResults (l : List GroupResult) : List GroupResult :=
  l.foldr insertResult []

/-- The line `res.rep << ": " << res.count` (the final newline left out). -/
def emitLine (res : GroupResult) : List Nat :=
  res.rep ++ [58, 32] ++ (Nat.toDigits 10 res.count).map Char.toNat

/-- The values `main` has computed when it reaches its output loop. -/
structure Run where
  vocab : Vocab
  dsu : DSU
  positions : List (List Nat)
  group_freq : List (Nat × Nat)
  group_reps : List (Nat × List Nat)
  results : List GroupResult
deriving DecidableEq

/-- The body of `main` from the input loop to the sorted `results`; on an empty
`wordlist` the early return leaves everything empty. -/
def run (K : Int) (tokens : List (List Nat)) : Option Run :=
  let v := readInput tokens
  if v.wordlist = [] then
    some { vocab := v, dsu := DSU.new 0, positions := [], group_freq := [],
           group_reps := [], results := [] }
  else
    match buildClusters v with
    | none => none
    | some b =>
      match groupPositions b.dsu v.wordlist.length v.text_ids with
      | none => none
      | some (d1, positions) =>
        let group_freq := scoreClusters K v.wordlist.length positions
        match pickReps d1 v.wordlist group_freq with
        | none => none
        | some (_, group_reps) =>
          some { vocab := v, dsu := b.dsu, positions := positions, group_freq := group_freq,
                 group_reps := group_reps,
                 results := sortResults (buildResults group_freq group_reps) }

/-- The lines `main` writes, in order. -/
def main (K : Int) (tokens : List (List Nat)) : Option (List (List Nat)) :=
  (run K tokens).map (fun r => r.results.map emitLine)

/-- The byte values of a string literal. -/
def str (s : String) : List Nat :=
  s.toList.map Char.toNat

/-! ## Specification-side notions -/

/-- In `RootIn p k i r`, following `parent` from `i` reaches, after exactly `k` steps, the
node `r` with `parent[r] == r`. -/
inductive RootIn (p : List Nat) : Nat → Nat → Nat → Prop
  | root {r : Nat} : p[r]? = some r → RootIn p 0 r r
  | step {k i j r : Nat} : p[i]? = some j → j ≠ i → RootIn p k j r → RootIn p (k + 1) i r

/-- In `RootOf p i r`, `r` is the root of the tree of `i` in the forest `p`. -/
def RootOf (p : List Nat) (i r : Nat) : Prop :=
  ∃ k, RootIn p k i r

/-- The `parent` vector is a forest: every valid id reaches a root. -/
def Forest (p : List Nat) : Prop :=
  ∀ i, i < p.length → ∃ r, RootOf p i r

/-- Two ids are in the same component of the forest `p`. -/
def Same (p : List Nat) (a b : Nat) : Prop :=
  ∃ r, RootOf p a r ∧ RootOf p b r

/-- In `Compress p q`, `q` is `p` after some path compression: every entry of `q` is the
entry of `p` or, at a node that is not a root, the root of that node. -/
def Compress (p q : List Nat) : Prop :=
  q.length = p.length ∧ ∀ x, q[x]? = p[x]? ∨ ∃ k r, RootIn p (k + 1) x r ∧ q[x]? = some r

/-- The invariant of `struct DSU`: `parent` is a forest and `size` is as long. -/
def DSU.WF (d : DSU) : Prop :=
  Forest d.parent ∧ d.size.length = d.parent.length

/-- The spec's wording of the Normalizer: keep, in order, the ASCII letters and the
apostrophes, drop the rest, and put every kept letter in lower case. -/
def normalizeSpec (s : List Nat) : List Nat :=
  (s.filter (fun c => decide ((65 ≤ c ∧ c ≤ 90) ∨ (97 ≤ c ∧ c ≤ 122) ∨ c = 39))).map
    (fun c => if 65 ≤ c ∧ c ≤ 90 then c + 32 else c)

/-- What the input loop keeps true of `wordlist`, `word_to_id` and `text_ids`. -/
structure VocabInv (v : Vocab) : Prop where
  ids : ∀ w i, lookup w v.word_to_id = some i ↔ v.wordlist[i]? = some w
  nodup : v.wordlist.Nodup
  normal : ∀ w ∈ v.wordlist, w ≠ [] ∧ ∀ c ∈ w, (97 ≤ c ∧ c ≤ 122) ∨ c = 39
  text : ∀ id ∈ v.text_ids, id < v.wordlist.length

/-- Two forms of equal length that differ in exactly one character position. -/
def DiffersAtOne (s t : List Nat) : Prop :=
  s.length = t.length ∧ ∃ j, j < s.length ∧ s[j]? ≠ t[j]? ∧ ∀ j', j' ≠ j → s[j']? = t[j']?

/-- The form `s` is the form `t`, longer than one character, followed by `s` or `e`. -/
def Extends (t s : List Nat) : Prop :=
  1 < t.length ∧ (s = t ++ [115] ∨ s = t ++ [101])

/-- The two union rules, as a relation on forms: a single substitution between forms of
length at least 2, or one form being the other extended by a final `s` or `e`. -/
def Near (s t : List Nat) : Prop :=
  (2 ≤ s.length ∧ DiffersAtOne s t) ∨ Extends s t ∨ Extends t s

/-- A chain of forms of the vocabulary `wl`, each consecutive pair related by a rule. -/
def Linked (wl : List (List Nat)) : List Nat → List Nat → Prop :=
  Relation.ReflTransGen (fun s t => s ∈ wl ∧ t ∈ wl ∧ Near s t)

/-- What the Equivalence Builder loop keeps true of `dsu` and `mask_map`. -/
structure BuilderInv (v : Vocab) (b : Builder) : Prop where
  wf : b.dsu.WF
  len : b.dsu.parent.length = v.wordlist.length
  sound : ∀ a c, Same b.dsu.parent a c →
    Linked v.wordlist (v.wordlist.getD a []) (v.wordlist.getD c [])
  masks : ∀ m i1, lookup m b.mask_map = some i1 → i1 < v.wordlist.length ∧
    ∃ j, j < (v.wordlist.getD i1 []).length ∧ m = (v.wordlist.getD i1 []).set j 42

/-- The builder state `b'` comes after `b`: no mask entry and no connection is lost. -/
def Grows (b b' : Builder) : Prop :=
  (∀ m x, lookup m b.mask_map = some x → lookup m b'.mask_map = some x) ∧
    (∀ a c, Same b.dsu.parent a c → Same b'.dsu.parent a c)

/-- The masks of positions `< j` of form `i` are in `mask_map`, under an id joined
with `i`. -/
def MaskDone (v : Vocab) (b : Builder) (i j : Nat) : Prop :=
  ∀ j0, j0 < j → ∃ i1, lookup ((v.wordlist.getD i []).set j0 42) b.mask_map = some i1 ∧
    Same b.dsu.parent i i1

/-- Form `i` is joined with every vocabulary form it extends by a final `s` or `e`. -/
def SuffixDone (v : Vocab) (b : Builder) (i : Nat) : Prop :=
  ∀ i1, i1 < v.wordlist.length →
    Extends (v.wordlist.getD i1 []) (v.wordlist.getD i []) → Same b.dsu.parent i i1

/-- The TextSequence positions of the cluster with root `r`, in ascending order. -/
def clusterPositions (d : DSU) (text_ids : List Nat) (r : Nat) : List Nat :=
  (List.range text_ids.length).filter
    (fun p => decide (d.root (text_ids.getD p 0) = some r))

/-- The spec's wording of the occurrence count: how many positions `p` among `ps` have
some other position `q` among `ps` with `|p - q| ≤ K`. -/
def nearCount (K : Int) (ps : List Nat) : Nat :=
  (ps.filter (fun p => ps.any (fun q => decide (q ≠ p ∧ |(p : Int) - (q : Int)| ≤ K)))).length

/-- The test `ok` of the scorer at index `k` of the position list `pos`. -/
def okAt (K : Int) (pos : List Nat) (k : Nat) : Bool :=
  decide (k > 0 ∧ (pos.getD k 0 : Int) - (pos.getD (k - 1) 0 : Int) ≤ K) ||
    decide (k < pos.length - 1 ∧ (pos.getD (k + 1) 0 : Int) - (pos.getD k 0 : Int) ≤ K)

/-- The entry the scorer leaves in `group_freq` for index `i`, if any. -/
def scoreEntry (K : Int) (positions : List (List Nat)) (i : Nat) : Option (Nat × Nat) :=
  if 0 < freqOf K (positions.getD i []) then some (i, freqOf K (positions.getD i [])) else none

/-- The occurrence count of the cluster with root `r`: its entry in `group_freq`, or 0
when it has none. -/
def Run.count (R : Run) (r : Nat) : Nat :=
  (lookup r R.group_freq).getD 0

/-- The representative stored for the cluster with root `r`. -/
def Run.rep (R : Run) (r : Nat) : List Nat :=
  (lookup r R.group_reps).getD []

/-- What the `group_reps` loop keeps true once the ids `< k` have gone through it: a
stored representative is the smallest form among the members seen so far of a scored
cluster, and a scored cluster without one has had no member yet. -/
structure RepsInv (d : DSU) (wordlist : List (List Nat)) (group_freq : List (Nat × Nat))
    (k : Nat) (reps : List (Nat × List Nat)) : Prop where
  stored : ∀ r w, lookup r reps = some w → (lookup r group_freq).isSome = true ∧
    (∃ i, i < k ∧ d.root i = some r ∧ wordlist.getD i [] = w) ∧
    ∀ i, i < k → d.root i = some r → strLt (wordlist.getD i []) w = false
  missing : ∀ r, lookup r reps = none → ∀ i, i < k → d.root i = some r →
    lookup r group_freq = none

/-- What holds of the values `main` has computed when it reaches its output loop. -/
structure RunInv (K : Int) (tokens : List (List Nat)) (R : Run) : Prop where
  vocab : R.vocab = readInput tokens
  wf : R.dsu.WF
  len : R.dsu.parent.length = R.vocab.wordlist.length
  built : ∃ b, buildClusters R.vocab = some b ∧ b.dsu = R.dsu
  positions : ∀ r, r < R.vocab.wordlist.length →
    R.positions.getD r [] = clusterPositions R.dsu R.vocab.text_ids r
  freq : R.group_freq =
    (List.range R.vocab.wordlist.length).filterMap (scoreEntry K R.positions)
  reps : RepsInv R.dsu R.vocab.wordlist R.group_freq R.vocab.wordlist.length R.group_reps
  results : R.results = sortResults (buildResults R.group_freq R.group_reps)

/-- The words of Scenario 2: `cat cats dog cat`. -/
def scenario2 : List (List Nat) :=
  [str "cat", str "cats", str "dog", str "cat"]

/-- The words `b b a a`: two unrelated clusters with the same count. -/
def tieWords : List (List Nat) :=
  [str "b", str "b", str "a", str "a"]

/-- The states of a `DSU` on `n` ids reached from `DSU(n)` by a finite sequence of
`find` and `unite` calls on valid ids. -/
inductive Reachable (n : Nat) : DSU → Prop
  | init : Reachable n (DSU.new n)
  | find {d d1 : DSU} {i r : Nat} : Reachable n d → i < n → d.find i = some (d1, r) →
      Reachable n d1
  | unite {d d1 : DSU} {i j : Nat} : Reachable n d → i < n → j < n →
      d.unite i j = some d1 → Reachable n d1

/-- The node reached from `i` by following `parent` for `k` steps. -/
def parentIter (p : List Nat) : Nat → Nat → Nat
  | 0, i => i
  | k + 1, i => parentIter p k (p.getD i i)

/-- The state of `DSU(4)` after `unite(0,1)`, `unite(2,3)`, `unite(1,3)`: the path
from 3 to its root 0 goes through 2. -/
def chainDSU : DSU :=
  { parent := [0, 0, 0, 2], size := [4, 1, 2, 1] }

/-- The only cycles of the `parent` vector are the self-loops at roots: a valid id that
comes back to itself after one or more steps is its own parent. -/
def OnlySelfLoops (p : List Nat) : Prop :=
  ∀ i k, i < p.length → 0 < k → parentIter p k i = i → p[i]? = some i

/-- The words of Scenario 3: `color colour color`. -/
def scenario3 : List (List Nat) :=
  [str "color", str "colour", str "color"]

/-- The non-empty normalized tokens of the input, in input order. -/
def forms (tokens : List (List Nat)) : List (List Nat) :=
  (tokens.map normalize).filter (fun w => decide (w ≠ []))

/-- The position of the first occurrence of the form `w` in the list `F` (the length of
`F` when it has none). -/
def firstIndex (w : List Nat) : List (List Nat) → Nat
  | [] => 0
  | x :: xs => if x = w then 0 else firstIndex w xs + 1

/-- What the input loop keeps true of `wordlist` and `text_ids` against the list `F` of
the non-empty normalized tokens read so far: `wordlist` holds the forms of `F`, each
once, in the order of their first occurrence in `F`, and `text_ids` names, position by
position, the forms of `F`. -/
structure InputInv (F : List (List Nat)) (v : Vocab) : Prop where
  vocab : VocabInv v
  mem : ∀ w, w ∈ v.wordlist ↔ w ∈ F
  order : ∀ i j, i < j → j < v.wordlist.length →
    firstIndex (v.wordlist.getD i []) F < firstIndex (v.wordlist.getD j []) F
  text_len : v.text_ids.length = F.length
  text : ∀ p, p < F.length → v.wordlist[v.text_ids.getD p 0]? = some (F.getD p [])

/-! # Theorems -/

/-! ## Loops -/

theorem foldlM_inv {σ α : Type} (f : σ → α → Option σ) (I : List α → σ → Prop) (xs : List α)
    (s0 : σ) (h0 : I [] s0)
    (hstep : ∀ pre x suf s, xs = pre ++ x :: suf → I pre s →
      ∃ s', f s x = some s' ∧ I (pre ++ [x]) s') :
    ∃ s, xs.foldlM f s0 = some s ∧ I xs s := by
  suffices H : ∀ (suf pre : List α) (s : σ), xs = pre ++ suf → I pre s →
      ∃ s', suf.foldlM f s = some s' ∧ I xs s' from H xs [] s0 rfl h0
  intro suf
  induction suf with
  | nil =>
    intro pre s hx hI
    simp only [List.append_nil] at hx
    exact ⟨s, rfl, hx ▸ hI⟩
  | cons x suf ih =>
    intro pre s hx hI
    obtain ⟨s', hs', hI'⟩ := hstep pre x suf s hx hI
    obtain ⟨s2, h2, hI2⟩ := ih (pre ++ [x]) s' (by simp [hx]) hI'
    exact ⟨s2, by simp [List.foldlM_cons, hs', h2], hI2⟩

theorem foldl_inv {σ α : Type} (f : σ → α → σ) (I : List α → σ → Prop) (xs : List α)
    (s0 : σ) (h0 : I [] s0)
    (hstep : ∀ pre x suf s, xs = pre ++ x :: suf → I pre s → I (pre ++ [x]) (f s x)) :
    I xs (xs.foldl f s0) := by
  suffices H : ∀ (suf pre : List α) (s : σ), xs = pre ++ suf → I pre s →
      I xs (suf.foldl f s) from H xs [] s0 rfl h0
  intro suf
  induction suf with
  | nil =>
    intro pre s hx hI
    simp only [List.append_nil] at hx
    exact hx ▸ hI
  | cons x suf ih =>
    intro pre s hx hI
    exact ih (pre ++ [x]) (f s x) (by simp [hx]) (hstep pre x suf s hx hI)

/-! ## The disjoint-set forest -/

theorem RootIn.lt_length {p : List Nat} {k i r : Nat} (h : RootIn p k i r) : i < p.length := by
  cases h with
  | root h => exact (List.getElem?_eq_some.1 h).1
  | step h _ _ => exact (List.getElem?_eq_some.1 h).1

theorem RootIn.root_fixed {p : List Nat} {k i r : Nat} (h : RootIn p k i r) : p[r]? = some r := by
  induction h with
  | root h => exact h
  | step _ _ _ ih => exact ih

theorem RootIn.determined {p : List Nat} {k i r : Nat} (h : RootIn p k i r) :
    ∀ {k' r' : Nat}, RootIn p k' i r' → k = k' ∧ r = r' := by
  induction h with
  | root h =>
    intro k' r' h'
    cases h' with
    | root _ => exact ⟨rfl, rfl⟩
    | step h1 h2 _ => rw [h] at h1; exact absurd (Option.some.inj h1).symm h2
  | step h1 h2 _ ih =>
    intro k' r' h'
    cases h' with
    | root h => rw [h] at h1; exact absurd (Option.some.inj h1).symm h2
    | step h1' _ h3 =>
      rw [h1] at h1'
      cases Option.some.inj h1'
      obtain ⟨hk, hr⟩ := ih h3
      exact ⟨by omega, hr⟩

theorem RootOf.unique {p : List Nat} {i r r' : Nat} (h : RootOf p i r) (h' : RootOf p i r') :
    r = r' := by
  obtain ⟨k, hk⟩ := h
  obtain ⟨k', hk'⟩ := h'
  exact (hk.determined hk').2

theorem RootOf.id_lt {p : List Nat} {i r : Nat} (h : RootOf p i r) : i < p.length := by
  obtain ⟨k, hk⟩ := h
  exact hk.lt_length

theorem RootOf.is_root {p : List Nat} {i r : Nat} (h : RootOf p i r) : p[r]? = some r := by
  obtain ⟨k, hk⟩ := h
  exact hk.root_fixed

theorem RootOf.root_lt {p : List Nat} {i r : Nat} (h : RootOf p i r) : r < p.length :=
  (List.getElem?_eq_some.1 h.is_root).1

theorem RootOf.root_root {p : List Nat} {i r : Nat} (h : RootOf p i r) : RootOf p r r :=
  ⟨0, RootIn.root h.is_root⟩

theorem RootIn.exists_finset {p : List Nat} {k i r : Nat} (h : RootIn p k i r) :
    ∃ S : Finset Nat, S.card = k + 1 ∧
      ∀ x ∈ S, x < p.length ∧ ∃ k', k' ≤ k ∧ RootIn p k' x r := by
  induction h with
  | @root r h =>
    refine ⟨{r}, by simp, ?_⟩
    intro x hx
    rw [Finset.mem_singleton] at hx
    subst hx
    exact ⟨(List.getElem?_eq_some.1 h).1, 0, le_refl _, RootIn.root h⟩
  | @step k i j r h1 h2 h3 ih =>
    obtain ⟨S, hcard, hS⟩ := ih
    have hi : i ∉ S := by
      intro hmem
      obtain ⟨_, k', hk', hr⟩ := hS i hmem
      have := (hr.determined (RootIn.step h1 h2 h3)).1
      omega
    refine ⟨insert i S, by rw [Finset.card_insert_of_not_mem hi, hcard], ?_⟩
    intro x hx
    rw [Finset.mem_insert] at hx
    rcases hx with hx | hx
    · subst hx
      exact ⟨(List.getElem?_eq_some.1 h1).1, k + 1, le_refl _, RootIn.step h1 h2 h3⟩
    · obtain ⟨hlt, k', hk', hr⟩ := hS x hx
      exact ⟨hlt, k', by omega, hr⟩

theorem RootIn.depth_lt {p : List Nat} {k i r : Nat} (h : RootIn p k i r) : k < p.length := by
  obtain ⟨S, hcard, hS⟩ := h.exists_finset
  have hsub : S ⊆ Finset.range p.length := by
    intro x hx
    exact Finset.mem_range.2 (hS x hx).1
  have := Finset.card_le_card hsub
  rw [Finset.card_range, hcard] at this
  omega

theorem Compress.same_list (p : List Nat) : Compress p p :=
  ⟨rfl, fun _ => Or.inl rfl⟩

theorem findAux_spec {p : List Nat} {k i r : Nat} (h : RootIn p k i r) :
    ∀ fuel, k < fuel → ∃ q, DSU.findAux fuel p i = some (q, r) ∧ Compress p q := by
  induction h with
  | root h =>
    intro fuel hf
    obtain ⟨f, rfl⟩ : ∃ f, fuel = f + 1 := ⟨fuel - 1, by omega⟩
    exact ⟨p, by simp [DSU.findAux, h], Compress.same_list p⟩
  | @step k i j r h1 h2 h3 ih =>
    intro fuel hf
    obtain ⟨f, rfl⟩ : ∃ f, fuel = f + 1 := ⟨fuel - 1, by omega⟩
    obtain ⟨q, hq, hlen, hc⟩ := ih f (by omega)
    refine ⟨q.set i r, by simp [DSU.findAux, h1, h2, hq], by simp [hlen], ?_⟩
    intro x
    by_cases hx : i = x
    · subst hx
      right
      refine ⟨k, r, RootIn.step h1 h2 h3, ?_⟩
      rw [List.getElem?_set_self]
      simp [hlen, (List.getElem?_eq_some.1 h1).1]
    · rw [List.getElem?_set_ne hx]
      exact hc x

theorem Compress.root {p q : List Nat} (hc : Compress p q) {r : Nat} (h : p[r]? = some r) :
    q[r]? = some r := by
  rcases hc.2 r with h' | ⟨k, r', h', _⟩
  · rw [h', h]
  · have := ((RootIn.root h).determined h').1
    omega

theorem Compress.rootIn {p q : List Nat} (hc : Compress p q) {k i r : Nat}
    (h : RootIn p k i r) : RootOf q i r := by
  induction h with
  | root h => exact ⟨0, RootIn.root (hc.root h)⟩
  | @step k i j r h1 h2 h3 ih =>
    rcases hc.2 i with h' | ⟨k', r', h', hq⟩
    · obtain ⟨k2, hk2⟩ := ih
      exact ⟨k2 + 1, RootIn.step (h'.trans h1) h2 hk2⟩
    · have hr : r' = r := (h'.determined (RootIn.step h1 h2 h3)).2
      subst hr
      have hne : r' ≠ i := by
        intro e
        subst e
        rw [h3.root_fixed] at h1
        exact h2 (Option.some.inj h1).symm
      exact ⟨1, RootIn.step hq hne (RootIn.root (hc.root h3.root_fixed))⟩

theorem Compress.rootOf {p q : List Nat} (hc : Compress p q) {i r : Nat}
    (h : RootOf p i r) : RootOf q i r := by
  obtain ⟨k, hk⟩ := h
  exact hc.rootIn hk

theorem Compress.forest {p q : List Nat} (hc : Compress p q) (hp : Forest p) : Forest q := by
  intro i hi
  obtain ⟨r, hr⟩ := hp i (hc.1 ▸ hi)
  exact ⟨r, hc.rootOf hr⟩

theorem Compress.rootOf_iff {p q : List Nat} (hc : Compress p q) (hp : Forest p) {i r : Nat} :
    RootOf q i r ↔ RootOf p i r := by
  constructor
  · intro h
    obtain ⟨r', hr'⟩ := hp i (hc.1 ▸ h.id_lt)
    have := (hc.rootOf hr').unique h
    exact this ▸ hr'
  · exact hc.rootOf

theorem Compress.same_iff {p q : List Nat} (hc : Compress p q) (hp : Forest p) {a b : Nat} :
    Same q a b ↔ Same p a b := by
  constructor
  · rintro ⟨r, h1, h2⟩
    exact ⟨r, (hc.rootOf_iff hp).1 h1, (hc.rootOf_iff hp).1 h2⟩
  · rintro ⟨r, h1, h2⟩
    exact ⟨r, hc.rootOf h1, hc.rootOf h2⟩

theorem Compress.comp {p q s : List Nat} (hp : Forest p) (h1 : Compress p q)
    (h2 : Compress q s) : Compress p s := by
  refine ⟨h2.1.trans h1.1, ?_⟩
  intro x
  rcases h2.2 x with h | ⟨k, r, hk, hs⟩
  · rw [h]
    exact h1.2 x
  · have hr : RootOf p x r := (h1.rootOf_iff hp).1 ⟨k + 1, hk⟩
    obtain ⟨k', hk'⟩ := hr
    cases k' with
    | zero =>
      left
      cases hk' with
      | root h => rw [hs, h]
    | succ k' => exact Or.inr ⟨k', r, hk', hs⟩

theorem find_spec {d : DSU} (hd : d.WF) {i : Nat} (hi : i < d.parent.length) :
    ∃ d' r, d.find i = some (d', r) ∧ RootOf d.parent i r ∧ d'.WF ∧
      Compress d.parent d'.parent ∧ d'.size = d.size := by
  obtain ⟨r, k, hk⟩ := hd.1 i hi
  obtain ⟨q, hq, hc⟩ := findAux_spec hk d.parent.length hk.depth_lt
  refine ⟨{ d with parent := q }, r, by simp [DSU.find, hq], ⟨k, hk⟩, ?_, hc, rfl⟩
  exact ⟨hc.forest hd.1, by simpa [hc.1] using hd.2⟩

theorem root_eq_some_iff {d : DSU} (hd : d.WF) {i r : Nat} (hi : i < d.parent.length) :
    d.root i = some r ↔ RootOf d.parent i r := by
  obtain ⟨d', r', hf, hr, _⟩ := find_spec hd hi
  simp only [DSU.root, hf, Option.map_some', Option.some.injEq]
  constructor
  · intro h
    exact h ▸ hr
  · intro h
    exact hr.unique h

theorem Same.symm {p : List Nat} {a b : Nat} (h : Same p a b) : Same p b a := by
  obtain ⟨r, h1, h2⟩ := h
  exact ⟨r, h2, h1⟩

theorem Same.trans {p : List Nat} {a b c : Nat} (h : Same p a b) (h' : Same p b c) :
    Same p a c := by
  obtain ⟨r, h1, h2⟩ := h
  obtain ⟨r', h3, h4⟩ := h'
  have := h2.unique h3
  subst this
  exact ⟨r, h1, h4⟩

theorem Same.refl {p : List Nat} (hp : Forest p) {a : Nat} (ha : a < p.length) : Same p a a := by
  obtain ⟨r, hr⟩ := hp a ha
  exact ⟨r, hr, hr⟩

theorem Same.lt_left {p : List Nat} {a b : Nat} (h : Same p a b) : a < p.length := by
  obtain ⟨r, h1, _⟩ := h
  exact h1.id_lt

theorem Same.lt_right {p : List Nat} {a b : Nat} (h : Same p a b) : b < p.length :=
  h.symm.lt_left

theorem RootOf.same {p : List Nat} {i r : Nat} (h : RootOf p i r) : Same p i r :=
  ⟨r, h, h.root_root⟩

theorem link_rootIn {p : List Nat} {A B : Nat} (hA : p[A]? = some A) (hB : p[B]? = some B)
    (hne : A ≠ B) {k x r : Nat} (h : RootIn p k x r) :
    RootOf (p.set B A) x (if r = B then A else r) := by
  have hA' : (p.set B A)[A]? = some A := by
    rw [List.getElem?_set_ne (Ne.symm hne)]
    exact hA
  induction h with
  | @root r h =>
    by_cases hr : r = B
    · subst hr
      rw [if_pos rfl]
      have hlt := (List.getElem?_eq_some.1 h).1
      refine ⟨1, RootIn.step ?_ hne (RootIn.root hA')⟩
      rw [List.getElem?_set_self]
      simp [hlt]
    · rw [if_neg hr]
      refine ⟨0, RootIn.root ?_⟩
      rw [List.getElem?_set_ne (Ne.symm hr)]
      exact h
  | @step k i j r h1 h2 h3 ih =>
    have hi : B ≠ i := by
      intro e
      subst e
      rw [hB] at h1
      exact h2 (Option.some.inj h1).symm
    obtain ⟨k', hk'⟩ := ih
    refine ⟨k' + 1, RootIn.step ?_ h2 hk'⟩
    rw [List.getElem?_set_ne hi]
    exact h1

theorem link_forest {p : List Nat} {A B : Nat} (hp : Forest p) (hA : p[A]? = some A)
    (hB : p[B]? = some B) (hne : A ≠ B) : Forest (p.set B A) := by
  intro i hi
  rw [List.length_set] at hi
  obtain ⟨r, k, hk⟩ := hp i hi
  exact ⟨_, link_rootIn hA hB hne hk⟩

theorem link_same {p : List Nat} {A B : Nat} (hp : Forest p) (hA : p[A]? = some A)
    (hB : p[B]? = some B) (hne : A ≠ B) (a b : Nat) :
    Same (p.set B A) a b ↔
      (Same p a b ∨ (Same p a A ∧ Same p B b) ∨ (Same p a B ∧ Same p A b)) := by
  have key : ∀ {x r : Nat}, RootOf p x r → RootOf (p.set B A) x (if r = B then A else r) := by
    intro x r h
    obtain ⟨k, hk⟩ := h
    exact link_rootIn hA hB hne hk
  have rA : RootOf p A A := ⟨0, RootIn.root hA⟩
  have rB : RootOf p B B := ⟨0, RootIn.root hB⟩
  constructor
  · rintro ⟨r, h1, h2⟩
    have ha : a < p.length := by simpa using h1.id_lt
    have hb : b < p.length := by simpa using h2.id_lt
    obtain ⟨ra, hra⟩ := hp a ha
    obtain ⟨rb, hrb⟩ := hp b hb
    have e1 := (key hra).unique h1
    have e2 := (key hrb).unique h2
    by_cases c1 : ra = B <;> by_cases c2 : rb = B
    · subst c1 c2
      exact Or.inl ⟨_, hra, hrb⟩
    · subst c1
      rw [if_pos rfl] at e1
      rw [if_neg c2] at e2
      have : rb = A := by omega
      subst this
      exact Or.inr (Or.inr ⟨⟨_, hra, rB⟩, ⟨_, rA, hrb⟩⟩)
    · subst c2
      rw [if_neg c1] at e1
      rw [if_pos rfl] at e2
      have : ra = A := by omega
      subst this
      exact Or.inr (Or.inl ⟨⟨_, hra, rA⟩, ⟨_, rB, hrb⟩⟩)
    · rw [if_neg c1] at e1
      rw [if_neg c2] at e2
      have : ra = rb := by omega
      subst this
      exact Or.inl ⟨_, hra, hrb⟩
  · rintro (⟨r, h1, h2⟩ | ⟨⟨r, h1, h2⟩, ⟨r', h3, h4⟩⟩ | ⟨⟨r, h1, h2⟩, ⟨r', h3, h4⟩⟩)
    · exact ⟨_, key h1, key h2⟩
    · have e1 := h2.unique rA
      have e2 := h3.unique rB
      subst e1 e2
      have k1 := key h1
      have k2 := key h4
      rw [if_neg hne] at k1
      rw [if_pos rfl] at k2
      exact ⟨_, k1, k2⟩
    · have e1 := h2.unique rB
      have e2 := h3.unique rA
      subst e1 e2
      have k1 := key h1
      have k2 := key h4
      rw [if_pos rfl] at k1
      rw [if_neg hne] at k2
      exact ⟨_, k1, k2⟩

theorem new_wf (n : Nat) : (DSU.new n).WF := by
  refine ⟨?_, by simp [DSU.new]⟩
  intro i hi
  simp only [DSU.new, List.length_range] at hi
  exact ⟨i, 0, RootIn.root (by simp [DSU.new, List.getElem?_range hi])⟩

theorem new_same (n : Nat) {a b : Nat} (h : Same (DSU.new n).parent a b) : a = b := by
  obtain ⟨r, ⟨k1, h1⟩, ⟨k2, h2⟩⟩ := h
  have key : ∀ {k x r : Nat}, RootIn (DSU.new n).parent k x r → x = r := by
    intro k x r h
    cases h with
    | root _ => rfl
    | step h1 h2 _ =>
      have hlt : x < n := by simpa [DSU.new] using (List.getElem?_eq_some.1 h1).1
      simp only [DSU.new, List.getElem?_range hlt, Option.some.injEq] at h1
      exact absurd h1.symm h2
  rw [key h1, key h2]

theorem unite_spec {d : DSU} (hd : d.WF) {i j : Nat} (hi : i < d.parent.length)
    (hj : j < d.parent.length) :
    ∃ d', d.unite i j = some d' ∧ d'.WF ∧ d'.parent.length = d.parent.length ∧
      ∀ a b, Same d'.parent a b ↔
        (Same d.parent a b ∨ (Same d.parent a i ∧ Same d.parent j b) ∨
          (Same d.parent a j ∧ Same d.parent i b)) := by
  obtain ⟨d1, ri, hf1, hri, hwf1, hc1, hs1⟩ := find_spec hd hi
  obtain ⟨d2, rj, hf2, hrj, hwf2, hc2, hs2⟩ := find_spec hwf1 (hc1.1 ▸ hj)
  have hc : Compress d.parent d2.parent := hc1.comp hd.1 hc2
  have hri2 : RootOf d2.parent i ri := hc.rootOf hri
  have hrj2 : RootOf d2.parent j rj := hc2.rootOf hrj
  have hrj0 : RootOf d.parent j rj := (hc1.rootOf_iff hd.1).1 hrj
  by_cases hne : ri = rj
  · subst hne
    refine ⟨d2, by simp [DSU.unite, hf1, hf2], hwf2, hc.1, ?_⟩
    intro a b
    rw [hc.same_iff hd.1]
    have hij : Same d.parent i j := ⟨_, hri, hrj0⟩
    constructor
    · exact Or.inl
    · rintro (h | ⟨h1, h2⟩ | ⟨h1, h2⟩)
      · exact h
      · exact (h1.trans hij).trans h2
      · exact (h1.trans hij.symm).trans h2
  · have same2 : ∀ {x y : Nat}, Same d2.parent x y ↔ Same d.parent x y := hc.same_iff hd.1
    have hiA : Same d.parent i ri := hri.same
    have hjB : Same d.parent j rj := hrj0.same
    by_cases hsz : d2.size.getD ri 0 < d2.size.getD rj 0
    · have hu : d.unite i j = some (DSU.mk (d2.parent.set ri rj)
          (d2.size.set rj (d2.size.getD rj 0 + d2.size.getD ri 0))) := by
        simp only [DSU.unite, hf1, hf2, ne_eq, hne, not_false_eq_true, ↓reduceIte, hsz]
      refine ⟨_, hu, ⟨link_forest hwf2.1 hrj2.is_root hri2.is_root (Ne.symm hne), ?_⟩, ?_, ?_⟩
      · simp [hwf2.2]
      · simp [hc.1]
      · intro a b
        show Same (d2.parent.set ri rj) a b ↔ _
        rw [link_same hwf2.1 hrj2.is_root hri2.is_root (Ne.symm hne), same2, same2, same2,
          same2, same2]
        constructor
        · rintro (h | ⟨h1, h2⟩ | ⟨h1, h2⟩)
          · exact Or.inl h
          · exact Or.inr (Or.inr ⟨h1.trans hjB.symm, hiA.trans h2⟩)
          · exact Or.inr (Or.inl ⟨h1.trans hiA.symm, hjB.trans h2⟩)
        · rintro (h | ⟨h1, h2⟩ | ⟨h1, h2⟩)
          · exact Or.inl h
          · exact Or.inr (Or.inr ⟨h1.trans hiA, hjB.symm.trans h2⟩)
          · exact Or.inr (Or.inl ⟨h1.trans hjB, hiA.symm.trans h2⟩)
    · have hu : d.unite i j = some (DSU.mk (d2.parent.set rj ri)
          (d2.size.set ri (d2.size.getD ri 0 + d2.size.getD rj 0))) := by
        simp only [DSU.unite, hf1, hf2, ne_eq, hne, not_false_eq_true, ↓reduceIte, hsz]
      refine ⟨_, hu, ⟨link_forest hwf2.1 hri2.is_root hrj2.is_root hne, ?_⟩, ?_, ?_⟩
      · simp [hwf2.2]
      · simp [hc.1]
      · intro a b
        show Same (d2.parent.set rj ri) a b ↔ _
        rw [link_same hwf2.1 hri2.is_root hrj2.is_root hne, same2, same2, same2,
          same2, same2]
        constructor
        · rintro (h | ⟨h1, h2⟩ | ⟨h1, h2⟩)
          · exact Or.inl h
          · exact Or.inr (Or.inl ⟨h1.trans hiA.symm, hjB.trans h2⟩)
          · exact Or.inr (Or.inr ⟨h1.trans hjB.symm, hiA.trans h2⟩)
        · rintro (h | ⟨h1, h2⟩ | ⟨h1, h2⟩)
          · exact Or.inl h
          · exact Or.inr (Or.inl ⟨h1.trans hiA, hjB.symm.trans h2⟩)
          · exact Or.inr (Or.inr ⟨h1.trans hjB, hiA.symm.trans h2⟩)

/-! ## `normalize` -/

theorem normalize_foldl (s out : List Nat) :
    s.foldl normalizeStep out = out ++ normalizeSpec s := by
  induction s generalizing out with
  | nil => simp [normalizeSpec]
  | cons c s ih =>
    rw [List.foldl_cons, ih]
    by_cases h1 : (65 ≤ c ∧ c ≤ 90) ∨ (97 ≤ c ∧ c ≤ 122)
    · have ha : isalpha c = true := by
        simp only [isalpha, Bool.or_eq_true, Bool.and_eq_true, decide_eq_true_eq]
        exact h1
      have hk : ((65 ≤ c ∧ c ≤ 90) ∨ (97 ≤ c ∧ c ≤ 122) ∨ c = 39) := by omega
      simp [normalizeStep, ha, normalizeSpec, List.filter_cons, hk, tolower]
    · have ha : isalpha c = false := by
        rw [← Bool.not_eq_true]
        simp only [isalpha, Bool.or_eq_true, Bool.and_eq_true, decide_eq_true_eq]
        exact h1
      by_cases h2 : c = 39
      · subst h2
        simp [normalizeStep, ha, normalizeSpec, List.filter_cons]
      · have hk : ¬ ((65 ≤ c ∧ c ≤ 90) ∨ (97 ≤ c ∧ c ≤ 122) ∨ c = 39) := by omega
        simp [normalizeStep, ha, h2, normalizeSpec, List.filter_cons, hk, h1]

theorem normalize_eq_spec (s : List Nat) : normalize s = normalizeSpec s := by
  simp [normalize, normalize_foldl]

theorem mem_normalize {s : List Nat} {c : Nat} (h : c ∈ normalize s) :
    (97 ≤ c ∧ c ≤ 122) ∨ c = 39 := by
  rw [normalize_eq_spec, normalizeSpec, List.mem_map] at h
  obtain ⟨a, ha, rfl⟩ := h
  rw [List.mem_filter, decide_eq_true_eq] at ha
  have := ha.2
  split_ifs <;> omega

/-- C10: `normalize(s)` is `s` with exactly the ASCII letters (put in lower case) and the
apostrophes kept, in their order, and everything else dropped; so it holds only
`a`..`z` and apostrophes, and never the wildcard `*`. -/
theorem normalize_keeps_letters_and_apostrophes (s : List Nat) :
    normalize s = normalizeSpec s ∧
      (∀ c ∈ normalize s, (97 ≤ c ∧ c ≤ 122) ∨ c = 39) ∧ 42 ∉ normalize s := by
  refine ⟨normalize_eq_spec s, fun c hc => mem_normalize hc, ?_⟩
  intro h
  have := mem_normalize h
  omega

/-! ## Association lists -/

theorem lookup_assign_self {κ ν : Type} [DecidableEq κ] (k : κ) (v : ν) (m : List (κ × ν)) :
    lookup k (assign k v m) = some v := by
  induction m with
  | nil => simp [assign, lookup]
  | cons e m ih =>
    by_cases h : e.1 = k
    · simp [assign, lookup, h]
    · simp [assign, lookup, h, ih]

theorem lookup_assign_ne {κ ν : Type} [DecidableEq κ] {k k' : κ} (h : k ≠ k') (v : ν)
    (m : List (κ × ν)) : lookup k' (assign k v m) = lookup k' m := by
  induction m with
  | nil => simp [assign, lookup, h]
  | cons e m ih =>
    by_cases h1 : e.1 = k
    · have h2 : e.1 ≠ k' := h1 ▸ h
      simp [assign, lookup, h1, h, h2]
    · by_cases h2 : e.1 = k'
      · have h3 : ¬ k' = k := fun e => h e.symm
        simp [assign, lookup, h1, h2, h3]
      · simp [assign, lookup, h1, h2, ih]

theorem lookup_eq_none_iff {κ ν : Type} [DecidableEq κ] (k : κ) (m : List (κ × ν)) :
    lookup k m = none ↔ ∀ e ∈ m, e.1 ≠ k := by
  induction m with
  | nil => simp [lookup]
  | cons e m ih =>
    by_cases h : e.1 = k
    · simp [lookup, h]
    · simp [lookup, h, ih]

theorem lookup_mem {κ ν : Type} [DecidableEq κ] {k : κ} {v : ν} {m : List (κ × ν)}
    (h : lookup k m = some v) : (k, v) ∈ m := by
  induction m with
  | nil => simp [lookup] at h
  | cons e m ih =>
    by_cases h1 : e.1 = k
    · simp only [lookup, h1, if_true, Option.some.injEq] at h
      rw [← h1, ← h]
      exact List.mem_cons_self _ _
    · simp only [lookup, h1, if_false] at h
      exact List.mem_cons_of_mem _ (ih h)

theorem assign_of_new {κ ν : Type} [DecidableEq κ] {k : κ} (v : ν) {m : List (κ × ν)}
    (h : lookup k m = none) : assign k v m = m ++ [(k, v)] := by
  induction m with
  | nil => rfl
  | cons e m ih =>
    by_cases h1 : e.1 = k
    · simp [lookup, h1] at h
    · simp only [lookup, h1, if_false] at h
      simp [assign, h1, ih h]

theorem lookup_append_new {κ ν : Type} [DecidableEq κ] (k k' : κ) (v : ν) (m : List (κ × ν)) :
    lookup k' (m ++ [(k, v)]) =
      match lookup k' m with
      | some x => some x
      | none => if k = k' then some v else none := by
  induction m with
  | nil => simp [lookup]
  | cons e m ih =>
    by_cases h1 : e.1 = k'
    · simp [lookup, h1]
    · simp [lookup, h1, ih]

/-! ## The input loop -/

theorem readStep_inv {v : Vocab} (hv : VocabInv v) (buf : List Nat) :
    VocabInv (readStep v buf) := by
  unfold readStep
  by_cases hw : normalize buf = []
  · simp only [hw, if_true]
    exact hv
  · simp only [hw, if_false]
    cases hl : lookup (normalize buf) v.word_to_id with
    | some id =>
      have hid := (hv.ids _ _).1 hl
      simp only [try_emplace, hl]
      refine ⟨hv.ids, hv.nodup, hv.normal, ?_⟩
      intro x hx
      simp only [Bool.false_eq_true, if_false, List.mem_append, List.mem_singleton] at hx ⊢
      rcases hx with hx | hx
      · exact hv.text x hx
      · rw [hx]
        exact (List.getElem?_eq_some.1 hid).1
    | none =>
      have hnew : normalize buf ∉ v.wordlist := by
        intro hmem
        obtain ⟨i, hi⟩ := List.mem_iff_getElem?.1 hmem
        rw [← hv.ids, hl] at hi
        exact Option.noConfusion hi
      simp only [try_emplace, hl, if_true]
      refine ⟨?_, ?_, ?_, ?_⟩
      · intro w i
        by_cases hwe : normalize buf = w
        · subst hwe
          rw [lookup_assign_self]
          constructor
          · intro h
            cases h
            simp
          · intro h
            rcases Nat.lt_or_ge i v.wordlist.length with hlt | hge
            · rw [List.getElem?_append_left hlt] at h
              exact absurd (List.mem_iff_getElem?.2 ⟨i, h⟩) hnew
            · have hi := (List.getElem?_eq_some.1 h).1
              simp only [List.length_append, List.length_singleton] at hi
              have : i = v.wordlist.length := by omega
              rw [this]
        · rw [lookup_assign_ne hwe, hv.ids]
          constructor
          · intro h
            rw [List.getElem?_append_left (List.getElem?_eq_some.1 h).1]
            exact h
          · intro h
            rcases Nat.lt_or_ge i v.wordlist.length with hlt | hge
            · rw [List.getElem?_append_left hlt] at h
              exact h
            · rw [List.getElem?_append_right hge] at h
              have hi := (List.getElem?_eq_some.1 h).1
              simp only [List.length_singleton] at hi
              have h0 : i - v.wordlist.length = 0 := by omega
              rw [h0] at h
              simp only [List.getElem?_cons_zero, Option.some.injEq] at h
              exact absurd h hwe
      · exact List.Nodup.append hv.nodup (List.nodup_singleton _)
          (by intro a ha hb; rw [List.mem_singleton] at hb; exact hnew (hb ▸ ha))
      · intro w hmem
        rw [List.mem_append, List.mem_singleton] at hmem
        rcases hmem with hmem | hmem
        · exact hv.normal w hmem
        · subst hmem
          exact ⟨hw, fun c hc => mem_normalize hc⟩
      · intro x hx
        simp only [List.mem_append, List.mem_singleton, List.length_append,
          List.length_singleton] at hx ⊢
        rcases hx with hx | hx
        · have := hv.text x hx
          omega
        · omega

theorem VocabInv.no_star {v : Vocab} (hv : VocabInv v) {w : List Nat} (hw : w ∈ v.wordlist) :
    42 ∉ w := by
  intro h
  have := (hv.normal w hw).2 42 h
  omega

theorem readInput_inv (tokens : List (List Nat)) : VocabInv (readInput tokens) := by
  unfold readInput
  refine foldl_inv readStep (fun _ v => VocabInv v) tokens _ ?_ ?_
  · exact ⟨by simp [lookup], List.nodup_nil, by simp, by simp⟩
  · intro pre x suf s _ hI
    exact readStep_inv hI x

/-! ## Loops over `0 .. n-1` -/

theorem getElem?_getD {α : Type} (l : List α) (d : α) {i : Nat} (h : i < l.length) :
    l[i]? = some (l.getD i d) := by
  rw [List.getD_eq_getElem?_getD, List.getElem?_eq_getElem h]
  rfl

theorem getD_mem {α : Type} (l : List α) (d : α) {i : Nat} (h : i < l.length) :
    l.getD i d ∈ l :=
  List.mem_iff_getElem?.2 ⟨i, getElem?_getD l d h⟩

theorem getD_of_getElem? {α : Type} {l : List α} (d : α) {i : Nat} {a : α}
    (h : l[i]? = some a) : l.getD i d = a := by
  rw [List.getD_eq_getElem?_getD, h]
  rfl

theorem range_split {n x : Nat} {pre suf : List Nat} (h : List.range n = pre ++ x :: suf) :
    pre = List.range x ∧ x < n := by
  have hlen : n = pre.length + (suf.length + 1) := by
    have := congrArg List.length h
    simpa using this
  have hx : x = pre.length := by
    have h1 : (List.range n)[pre.length]? = some x := by
      rw [h, List.getElem?_append_right (le_refl _)]
      simp
    rw [List.getElem?_range (by omega)] at h1
    exact (Option.some.inj h1).symm
  refine ⟨?_, by omega⟩
  apply List.ext_getElem?
  intro k
  rcases Nat.lt_or_ge k x with hk | hk
  · rw [List.getElem?_range hk]
    have h2 : (List.range n)[k]? = pre[k]? := by
      rw [h, List.getElem?_append_left (by omega)]
    rw [← h2, List.getElem?_range (by omega)]
  · rw [List.getElem?_eq_none (by omega), List.getElem?_eq_none (by simpa using hk)]

theorem range_foldlM_inv {σ : Type} (f : σ → Nat → Option σ) (I : Nat → σ → Prop) (n : Nat)
    (s0 : σ) (h0 : I 0 s0)
    (hstep : ∀ k s, k < n → I k s → ∃ s', f s k = some s' ∧ I (k + 1) s') :
    ∃ s, (List.range n).foldlM f s0 = some s ∧ I n s := by
  have := foldlM_inv f (fun pre s => I pre.length s) (List.range n) s0 h0 (by
    intro pre x suf s hx hI
    obtain ⟨hpre, hlt⟩ := range_split hx
    have hl : pre.length = x := by rw [hpre, List.length_range]
    rw [hl] at hI
    obtain ⟨s', h1, h2⟩ := hstep x s hlt hI
    exact ⟨s', h1, by simpa [hl] using h2⟩)
  simpa using this

theorem range_foldl_inv {σ : Type} (f : σ → Nat → σ) (I : Nat → σ → Prop) (n : Nat)
    (s0 : σ) (h0 : I 0 s0) (hstep : ∀ k s, k < n → I k s → I (k + 1) (f s k)) :
    I n ((List.range n).foldl f s0) := by
  have := foldl_inv f (fun pre s => I pre.length s) (List.range n) s0 h0 (by
    intro pre x suf s hx hI
    obtain ⟨hpre, hlt⟩ := range_split hx
    have hl : pre.length = x := by rw [hpre, List.length_range]
    rw [hl] at hI
    simpa [hl] using hstep x s hlt hI)
  simpa using this

/-! ## The Equivalence Builder -/

theorem DiffersAtOne.swap {s t : List Nat} (h : DiffersAtOne s t) : DiffersAtOne t s := by
  obtain ⟨hl, j, hj, hne, hall⟩ := h
  exact ⟨hl.symm, j, hl ▸ hj, fun e => hne e.symm, fun j' hj' => (hall j' hj').symm⟩

theorem Near.flip {s t : List Nat} (h : Near s t) : Near t s := by
  rcases h with ⟨h1, h2⟩ | h | h
  · exact Or.inl ⟨h2.1 ▸ h1, h2.swap⟩
  · exact Or.inr (Or.inr h)
  · exact Or.inr (Or.inl h)

theorem Linked.reverse {wl : List (List Nat)} {s t : List Nat} (h : Linked wl s t) :
    Linked wl t s := by
  induction h with
  | refl => exact Relation.ReflTransGen.refl
  | tail _ hbc ih =>
    exact Relation.ReflTransGen.head ⟨hbc.2.1, hbc.1, hbc.2.2.flip⟩ ih

theorem mask_collision {s t : List Nat} (ht : 42 ∉ t) {j j1 : Nat}
    (hj : j < s.length) (h : s.set j 42 = t.set j1 42) :
    s = t ∨ DiffersAtOne s t := by
  have hlen : s.length = t.length := by
    have := congrArg List.length h
    simpa using this
  have hjj : j1 = j := by
    by_contra hne
    have h1 : (s.set j 42)[j]? = some 42 := List.getElem?_set_self hj
    rw [h, List.getElem?_set_ne hne] at h1
    exact ht (List.mem_iff_getElem?.2 ⟨j, h1⟩)
  subst hjj
  have hall : ∀ j', j' ≠ j1 → s[j']? = t[j']? := by
    intro j' hj'
    have := congrArg (fun l => l[j']?) h
    simpa [List.getElem?_set_ne (Ne.symm hj')] using this
  by_cases hat : s[j1]? = t[j1]?
  · left
    apply List.ext_getElem?
    intro k
    by_cases hk : k = j1
    · rw [hk]
      exact hat
    · exact hall k hk
  · exact Or.inr ⟨hlen, j1, hj, hat, hall⟩

theorem Grows.self (b : Builder) : Grows b b :=
  ⟨fun _ _ h => h, fun _ _ h => h⟩

theorem Grows.andThen {b1 b2 b3 : Builder} (h : Grows b1 b2) (h' : Grows b2 b3) : Grows b1 b3 :=
  ⟨fun m x hx => h'.1 m x (h.1 m x hx), fun a c hs => h'.2 a c (h.2 a c hs)⟩

theorem MaskDone.grow {v : Vocab} {b b' : Builder} {i j : Nat} (h : MaskDone v b i j)
    (hg : Grows b b') : MaskDone v b' i j := by
  intro j0 hj0
  obtain ⟨i1, h1, h2⟩ := h j0 hj0
  exact ⟨i1, hg.1 _ _ h1, hg.2 _ _ h2⟩

theorem SuffixDone.stays {v : Vocab} {b b' : Builder} {i : Nat} (h : SuffixDone v b i)
    (hg : Grows b b') : SuffixDone v b' i :=
  fun i1 hi1 he => hg.2 _ _ (h i1 hi1 he)

theorem unite_builder {v : Vocab} {b : Builder} (hb : BuilderInv v b) {i i1 : Nat}
    (hi : i < v.wordlist.length) (hi1 : i1 < v.wordlist.length)
    (hlink : Linked v.wordlist (v.wordlist.getD i []) (v.wordlist.getD i1 [])) :
    ∃ d, b.dsu.unite i i1 = some d ∧ BuilderInv v { mask_map := b.mask_map, dsu := d } ∧
      Grows b { mask_map := b.mask_map, dsu := d } ∧ Same d.parent i i1 := by
  obtain ⟨d, hu, hwf, hlen, hsame⟩ := unite_spec hb.wf (hb.len.symm ▸ hi) (hb.len.symm ▸ hi1)
  have hii : Same b.dsu.parent i i := Same.refl hb.wf.1 (hb.len.symm ▸ hi)
  have hii1 : Same b.dsu.parent i1 i1 := Same.refl hb.wf.1 (hb.len.symm ▸ hi1)
  refine ⟨d, hu, ⟨hwf, hlen.trans hb.len, ?_, hb.masks⟩, ⟨fun _ _ h => h, ?_⟩, ?_⟩
  · intro a c hac
    rcases (hsame a c).1 hac with h | ⟨h1, h2⟩ | ⟨h1, h2⟩
    · exact hb.sound a c h
    · exact ((hb.sound _ _ h1).trans hlink).trans (hb.sound _ _ h2)
    · exact ((hb.sound _ _ h1).trans hlink.reverse).trans (hb.sound _ _ h2)
  · intro a c hac
    exact (hsame a c).2 (Or.inl hac)
  · exact (hsame i i1).2 (Or.inr (Or.inl ⟨hii, hii1⟩))

theorem maskStep_spec {v : Vocab} (hv : VocabInv v) {b : Builder} (hb : BuilderInv v b)
    {i j : Nat} (hi : i < v.wordlist.length) (hj : j < (v.wordlist.getD i []).length)
    (hlen : 1 < (v.wordlist.getD i []).length) :
    ∃ b', maskStep i (v.wordlist.getD i []) b j = some b' ∧ BuilderInv v b' ∧ Grows b b' ∧
      ∃ i1, lookup ((v.wordlist.getD i []).set j 42) b'.mask_map = some i1 ∧
        Same b'.dsu.parent i i1 := by
  cases hl : lookup ((v.wordlist.getD i []).set j 42) b.mask_map with
  | none =>
    refine ⟨{ b with mask_map := assign ((v.wordlist.getD i []).set j 42) i b.mask_map },
      by simp only [maskStep, try_emplace, hl, ↓reduceIte], ⟨hb.wf, hb.len, hb.sound, ?_⟩, ⟨?_, fun _ _ h => h⟩,
      i, lookup_assign_self _ _ _, Same.refl hb.wf.1 (hb.len.symm ▸ hi)⟩
    · intro m i1 hm
      by_cases hme : (v.wordlist.getD i []).set j 42 = m
      · subst hme
        rw [lookup_assign_self] at hm
        cases hm
        exact ⟨hi, j, hj, rfl⟩
      · rw [lookup_assign_ne hme] at hm
        exact hb.masks m i1 hm
    · intro m x hm
      have hme : (v.wordlist.getD i []).set j 42 ≠ m := by
        intro e
        rw [e, hm] at hl
        exact Option.noConfusion hl
      show lookup m (assign _ _ _) = some x
      rw [lookup_assign_ne hme]
      exact hm
  | some i1 =>
    obtain ⟨hi1, j1, hj1, hm⟩ := hb.masks _ _ hl
    have hlink : Linked v.wordlist (v.wordlist.getD i []) (v.wordlist.getD i1 []) := by
      rcases mask_collision (hv.no_star (getD_mem _ _ hi1)) hj hm with h | h
      · rw [h]
        exact Relation.ReflTransGen.refl
      · exact Relation.ReflTransGen.single
          ⟨getD_mem _ _ hi, getD_mem _ _ hi1, Or.inl ⟨hlen, h⟩⟩
    obtain ⟨d, hu, hinv, hg, hs⟩ := unite_builder hb hi hi1 hlink
    exact ⟨{ mask_map := b.mask_map, dsu := d }, by
      simp only [maskStep, try_emplace, hl, Bool.false_eq_true, ↓reduceIte, hu],
      hinv, hg, i1, hl, hs⟩

theorem maskLoop_spec {v : Vocab} (hv : VocabInv v) {b : Builder} (hb : BuilderInv v b)
    {i : Nat} (hi : i < v.wordlist.length) (hlen : 1 < (v.wordlist.getD i []).length) :
    ∃ b', (List.range (v.wordlist.getD i []).length).foldlM
        (maskStep i (v.wordlist.getD i [])) b = some b' ∧
      BuilderInv v b' ∧ Grows b b' ∧ MaskDone v b' i (v.wordlist.getD i []).length := by
  obtain ⟨b', h1, h2, h3, h4⟩ := range_foldlM_inv (maskStep i (v.wordlist.getD i []))
    (fun k b' => BuilderInv v b' ∧ Grows b b' ∧ MaskDone v b' i k) _ b
    ⟨hb, Grows.self b, fun j0 hj0 => absurd hj0 (Nat.not_lt_zero _)⟩ (by
      intro k s hk ⟨hs1, hs2, hs3⟩
      obtain ⟨s', e1, e2, e3, i1, e4, e5⟩ := maskStep_spec hv hs1 hi hk hlen
      refine ⟨s', e1, e2, hs2.andThen e3, ?_⟩
      intro j0 hj0
      rcases Nat.lt_or_ge j0 k with hlt | hge
      · exact (hs3.grow e3) j0 hlt
      · have : j0 = k := by omega
        subst this
        exact ⟨i1, e4, e5⟩)
  exact ⟨b', h1, h2, h3, h4⟩

theorem take_append_last (s : List Nat) (h : s ≠ []) :
    s.take (s.length - 1) ++ [s.getD (s.length - 1) 0] = s := by
  have hl : 0 < s.length := List.length_pos.2 h
  have h1 : s.drop (s.length - 1) = [s.getD (s.length - 1) 0] := by
    rw [List.drop_eq_getElem_cons (by omega : s.length - 1 < s.length),
      List.getD_eq_getElem _ _ (by omega : s.length - 1 < s.length),
      List.drop_eq_nil_of_le (by omega)]
  rw [← h1, List.take_append_drop]

theorem Extends.last {t s : List Nat} (h : Extends t s) :
    (s.getD (s.length - 1) 0 = 115 ∨ s.getD (s.length - 1) 0 = 101) ∧
      s.take (s.length - 1) = t := by
  obtain ⟨_, rfl | rfl⟩ := h <;> simp

theorem Extends.length {t s : List Nat} (h : Extends t s) : s.length = t.length + 1 := by
  obtain ⟨_, rfl | rfl⟩ := h <;> simp

theorem suffixStep_spec {v : Vocab} (hv : VocabInv v) {b : Builder} (hb : BuilderInv v b)
    {i : Nat} (hi : i < v.wordlist.length) {s : List Nat} (hs : v.wordlist.getD i [] = s) :
    ∃ b', suffixStep v.word_to_id i s b = some b' ∧ BuilderInv v b' ∧ Grows b b' ∧
      SuffixDone v b' i := by
  have hfind : ∀ i1, i1 < v.wordlist.length → Extends (v.wordlist.getD i1 []) s →
      (s.getD (s.length - 1) 0 = 115 ∨ s.getD (s.length - 1) 0 = 101) ∧
        (s.take (s.length - 1)).length > 1 ∧
          lookup (s.take (s.length - 1)) v.word_to_id = some i1 := by
    intro i1 hi1 he
    obtain ⟨h1, h2⟩ := he.last
    refine ⟨h1, ?_, ?_⟩
    · rw [h2]
      exact he.1
    · rw [h2]
      exact (hv.ids _ _).2 (getElem?_getD v.wordlist [] hi1)
  by_cases hlast : s.getD (s.length - 1) 0 = 115 ∨ s.getD (s.length - 1) 0 = 101
  · by_cases hbase : (s.take (s.length - 1)).length > 1
    · cases hl : lookup (s.take (s.length - 1)) v.word_to_id with
      | none =>
        refine ⟨b, by simp only [suffixStep, hlast, hbase, hl, ↓reduceIte], hb, Grows.self b, ?_⟩
        intro i1 hi1 he
        rw [hs] at he
        have := (hfind i1 hi1 he).2.2
        rw [hl] at this
        exact Option.noConfusion this
      | some id =>
        have hid := (hv.ids _ _).1 hl
        have hidlt : id < v.wordlist.length := (List.getElem?_eq_some.1 hid).1
        have hwid : v.wordlist.getD id [] = s.take (s.length - 1) := getD_of_getElem? [] hid
        have hne : s ≠ [] := by
          intro e
          rw [e] at hbase
          simp at hbase
        have hext : Extends (s.take (s.length - 1)) s := by
          refine ⟨hbase, ?_⟩
          have h0 := take_append_last s hne
          rcases hlast with h | h
          · left
            rw [h] at h0
            exact h0.symm
          · right
            rw [h] at h0
            exact h0.symm
        have hlink : Linked v.wordlist (v.wordlist.getD i []) (v.wordlist.getD id []) := by
          refine Relation.ReflTransGen.single ⟨getD_mem _ _ hi, getD_mem _ _ hidlt, ?_⟩
          rw [hs, hwid]
          exact Or.inr (Or.inr hext)
        obtain ⟨d, hu, hinv, hg, hsame⟩ := unite_builder hb hi hidlt hlink
        refine ⟨{ mask_map := b.mask_map, dsu := d }, by
          simp only [suffixStep, hlast, hbase, hl, hu, ↓reduceIte], hinv, hg, ?_⟩
        intro i1 hi1 he
        rw [hs] at he
        have := (hfind i1 hi1 he).2.2
        rw [hl] at this
        cases this
        exact hsame
    · refine ⟨b, by simp only [suffixStep, hlast, hbase, ↓reduceIte], hb, Grows.self b, ?_⟩
      intro i1 hi1 he
      rw [hs] at he
      exact absurd (hfind i1 hi1 he).2.1 hbase
  · refine ⟨b, by simp only [suffixStep, hlast, ↓reduceIte], hb, Grows.self b, ?_⟩
    intro i1 hi1 he
    rw [hs] at he
    exact absurd (hfind i1 hi1 he).1 hlast

theorem builderStep_spec {v : Vocab} (hv : VocabInv v) {b : Builder} (hb : BuilderInv v b)
    {i : Nat} (hi : i < v.wordlist.length) :
    ∃ b', builderStep v b i = some b' ∧ BuilderInv v b' ∧ Grows b b' ∧
      (1 < (v.wordlist.getD i []).length → MaskDone v b' i (v.wordlist.getD i []).length) ∧
      SuffixDone v b' i := by
  by_cases hlen : (v.wordlist.getD i []).length ≤ 1
  · refine ⟨b, by simp only [builderStep, hlen, ↓reduceIte], hb, Grows.self b,
      fun h => absurd h (by omega), ?_⟩
    intro i1 _ he
    have h1 := he.length
    have h2 := he.1
    omega
  · obtain ⟨b1, e1, e2, e3, e4⟩ := maskLoop_spec hv hb hi (by omega)
    obtain ⟨b2, f1, f2, f3, f4⟩ := suffixStep_spec hv e2 hi rfl
    exact ⟨b2, by simp only [builderStep, hlen, ↓reduceIte, e1, f1], f2, e3.andThen f3,
      fun _ => e4.grow f3, f4⟩

theorem buildClusters_spec {v : Vocab} (hv : VocabInv v) :
    ∃ b, buildClusters v = some b ∧ BuilderInv v b ∧
      ∀ i, i < v.wordlist.length →
        (1 < (v.wordlist.getD i []).length →
          MaskDone v b i (v.wordlist.getD i []).length) ∧ SuffixDone v b i := by
  unfold buildClusters
  refine range_foldlM_inv (builderStep v)
    (fun k b => BuilderInv v b ∧ ∀ i, i < k →
        (1 < (v.wordlist.getD i []).length →
          MaskDone v b i (v.wordlist.getD i []).length) ∧ SuffixDone v b i)
    v.wordlist.length _ ⟨⟨new_wf _, by simp [DSU.new], ?_, ?_⟩, ?_⟩ ?_
  · intro a c h
    rw [new_same _ h]
    exact Relation.ReflTransGen.refl
  · intro m i1 h
    simp [lookup] at h
  · intro i hi
    exact absurd hi (Nat.not_lt_zero _)
  · intro k s hk ⟨hs1, hs2⟩
    obtain ⟨s', e1, e2, e3, e4, e5⟩ := builderStep_spec hv hs1 hk
    refine ⟨s', e1, e2, ?_⟩
    intro i hi
    rcases Nat.lt_or_ge i k with hlt | hge
    · exact ⟨fun h => ((hs2 i hlt).1 h).grow e3, (hs2 i hlt).2.stays e3⟩
    · have : i = k := by omega
      subst this
      exact ⟨e4, e5⟩

theorem same_roots {d : DSU} (hd : d.WF) {a c : Nat} (h : Same d.parent a c) :
    ∃ r, d.root a = some r ∧ d.root c = some r := by
  obtain ⟨r, h1, h2⟩ := h
  exact ⟨r, (root_eq_some_iff hd h1.id_lt).2 h1, (root_eq_some_iff hd h2.id_lt).2 h2⟩

theorem roots_same {d : DSU} (hd : d.WF) {a c r : Nat} (ha : a < d.parent.length)
    (hc : c < d.parent.length) (h1 : d.root a = some r) (h2 : d.root c = some r) :
    Same d.parent a c :=
  ⟨r, (root_eq_some_iff hd ha).1 h1, (root_eq_some_iff hd hc).1 h2⟩

theorem DiffersAtOne.mask_eq {s t : List Nat} {j : Nat} (hl : s.length = t.length)
    (hj : j < s.length) (hall : ∀ j', j' ≠ j → s[j']? = t[j']?) :
    s.set j 42 = t.set j 42 := by
  apply List.ext_getElem?
  intro k
  by_cases hk : j = k
  · subst hk
    rw [List.getElem?_set_self hj, List.getElem?_set_self (hl ▸ hj)]
  · rw [List.getElem?_set_ne hk, List.getElem?_set_ne hk]
    exact hall k (Ne.symm hk)

theorem wordlist_inj {v : Vocab} (hv : VocabInv v) {i j : Nat} (hi : i < v.wordlist.length)
    (hj : j < v.wordlist.length) (h : v.wordlist.getD i [] = v.wordlist.getD j []) : i = j := by
  have h1 := (hv.ids _ _).2 (getElem?_getD v.wordlist [] hi)
  have h2 := (hv.ids _ _).2 (getElem?_getD v.wordlist [] hj)
  rw [h, h2] at h1
  exact (Option.some.inj h1).symm

theorem Near.ne {s t : List Nat} (h : Near s t) : s ≠ t := by
  intro e
  subst e
  rcases h with ⟨_, _, j, _, hne, _⟩ | h | h
  · exact hne rfl
  · have := h.length
    omega
  · have := h.length
    omega

/-- C2: single-substitution rule.  The builder loop returns, and any two vocabulary forms
of the same length, at least 2, that differ in exactly one character position have the
same `dsu.find` after it. -/
theorem single_substitution_same_cluster (tokens : List (List Nat)) :
    ∃ b, buildClusters (readInput tokens) = some b ∧
      ∀ i j, i < (readInput tokens).wordlist.length → j < (readInput tokens).wordlist.length →
        2 ≤ ((readInput tokens).wordlist.getD i []).length →
        DiffersAtOne ((readInput tokens).wordlist.getD i [])
          ((readInput tokens).wordlist.getD j []) →
        ∃ r, b.dsu.root i = some r ∧ b.dsu.root j = some r := by
  have hv := readInput_inv tokens
  obtain ⟨b, hb, hinv, hdone⟩ := buildClusters_spec hv
  refine ⟨b, hb, ?_⟩
  intro i j hi hj hlen ⟨hl, jj, hjj, _, hall⟩
  obtain ⟨i1, h1, h2⟩ := (hdone i hi).1 (by omega) jj hjj
  obtain ⟨i2, h3, h4⟩ := (hdone j hj).1 (by omega) jj (hl ▸ hjj)
  rw [DiffersAtOne.mask_eq hl hjj hall, h3] at h1
  cases h1
  exact same_roots hinv.wf (h2.trans h4.symm)

/-- C3: suffix-trim rule.  The builder loop returns, and a vocabulary form `t` longer than
one character and a vocabulary form that is `t` followed by `s` or `e` have the same
`dsu.find` after it. -/
theorem suffix_trim_same_cluster (tokens : List (List Nat)) :
    ∃ b, buildClusters (readInput tokens) = some b ∧
      ∀ i j, i < (readInput tokens).wordlist.length → j < (readInput tokens).wordlist.length →
        1 < ((readInput tokens).wordlist.getD i []).length →
        ((readInput tokens).wordlist.getD j [] = (readInput tokens).wordlist.getD i [] ++ [115] ∨
          (readInput tokens).wordlist.getD j [] =
            (readInput tokens).wordlist.getD i [] ++ [101]) →
        ∃ r, b.dsu.root i = some r ∧ b.dsu.root j = some r := by
  have hv := readInput_inv tokens
  obtain ⟨b, hb, hinv, hdone⟩ := buildClusters_spec hv
  refine ⟨b, hb, ?_⟩
  intro i j hi hj hlen hext
  exact same_roots hinv.wf ((hdone j hj).2 i hi ⟨hlen, hext⟩).symm

/-- C4: the clusters merge nothing beyond the two rules.  The builder loop returns, and
two vocabulary forms with the same `dsu.find` after it are joined by a chain of
vocabulary forms whose consecutive pairs are related by a rule (a single substitution at
length at least 2, or a final `s`/`e` added to a form longer than one character); two
distinct forms that no rule relates directly, such as a one-letter insertion that is
not a final `s`/`e`, are joined only through a third form. -/
theorem clusters_only_by_rules (tokens : List (List Nat)) :
    ∃ b, buildClusters (readInput tokens) = some b ∧
      ∀ i j r, i < (readInput tokens).wordlist.length →
        j < (readInput tokens).wordlist.length →
        b.dsu.root i = some r → b.dsu.root j = some r →
        Linked (readInput tokens).wordlist ((readInput tokens).wordlist.getD i [])
            ((readInput tokens).wordlist.getD j []) ∧
          (i ≠ j → ¬ Near ((readInput tokens).wordlist.getD i [])
              ((readInput tokens).wordlist.getD j []) →
            ∃ u, u ∈ (readInput tokens).wordlist ∧
              u ≠ (readInput tokens).wordlist.getD i [] ∧
              u ≠ (readInput tokens).wordlist.getD j [] ∧
              Near ((readInput tokens).wordlist.getD i []) u ∧
              Linked (readInput tokens).wordlist u
                ((readInput tokens).wordlist.getD j [])) := by
  have hv := readInput_inv tokens
  obtain ⟨b, hb, hinv, _⟩ := buildClusters_spec hv
  refine ⟨b, hb, ?_⟩
  intro i j r hi hj hri hrj
  have hlink := hinv.sound i j
    (roots_same hinv.wf (hinv.len.symm ▸ hi) (hinv.len.symm ▸ hj) hri hrj)
  refine ⟨hlink, ?_⟩
  intro hne hnear
  rcases Relation.ReflTransGen.cases_head hlink with h | ⟨u, ⟨_, hu, hn⟩, hrest⟩
  · exact absurd (wordlist_inj hv hi hj h) hne
  · refine ⟨u, hu, fun e => hn.ne e.symm, ?_, hn, hrest⟩
    intro e
    exact hnear (e ▸ hn)

/-! ## The Occurrence Scorer -/

theorem foldl_count {α : Type} (c : α → Bool) (l : List α) (a : Nat) :
    l.foldl (fun f k => if c k then f + 1 else f) a = a + (l.filter c).length := by
  induction l generalizing a with
  | nil => simp
  | cons x l ih =>
    rw [List.foldl_cons, ih]
    by_cases h : c x = true
    · simp [h, List.filter_cons]
      omega
    · simp [h, List.filter_cons]

theorem freqOf_eq_filter (K : Int) (pos : List Nat) :
    freqOf K pos = ((List.range pos.length).filter (okAt K pos)).length := by
  have h : (List.range pos.length).foldl (freqStep K pos) 0 =
      ((List.range pos.length).filter (okAt K pos)).length := by
    have := foldl_count (okAt K pos) (List.range pos.length) 0
    rw [Nat.zero_add] at this
    exact this
  unfold freqOf
  by_cases hl : pos.length > 1
  · rw [if_pos hl, h]
  · rw [if_neg hl]
    have h0 : ∀ k ∈ List.range pos.length, ¬ (okAt K pos k = true) := by
      intro k hk
      rw [List.mem_range] at hk
      simp only [okAt, Bool.or_eq_true, decide_eq_true_eq]
      omega
    rw [List.filter_eq_nil_iff.2 h0]
    rfl

theorem freqOf_mono {K1 K2 : Int} (h : K1 ≤ K2) (pos : List Nat) :
    freqOf K1 pos ≤ freqOf K2 pos := by
  rw [freqOf_eq_filter, freqOf_eq_filter, ← List.countP_eq_length_filter,
    ← List.countP_eq_length_filter]
  apply List.countP_mono_left
  intro k _ hk
  simp only [okAt, Bool.or_eq_true, decide_eq_true_eq] at hk ⊢
  omega

theorem eq_map_getD (pos : List Nat) :
    pos = (List.range pos.length).map (fun k => pos.getD k 0) := by
  apply List.ext_getElem?
  intro k
  rcases Nat.lt_or_ge k pos.length with hk | hk
  · rw [List.getElem?_map, List.getElem?_range hk, getElem?_getD pos 0 hk]
    rfl
  · rw [List.getElem?_eq_none hk, List.getElem?_eq_none (by simpa using hk)]

theorem sorted_getD_lt {pos : List Nat} (hs : pos.Pairwise (· < ·)) {a b : Nat} (hab : a < b)
    (hb : b < pos.length) : pos.getD a 0 < pos.getD b 0 := by
  rw [List.getD_eq_getElem _ _ (by omega : a < pos.length), List.getD_eq_getElem _ _ hb]
  exact List.pairwise_iff_getElem.1 hs a b (by omega) hb hab

theorem sorted_getD_le {pos : List Nat} (hs : pos.Pairwise (· < ·)) {a b : Nat} (hab : a ≤ b)
    (hb : b < pos.length) : pos.getD a 0 ≤ pos.getD b 0 := by
  rcases Nat.eq_or_lt_of_le hab with h | h
  · rw [h]
  · exact Nat.le_of_lt (sorted_getD_lt hs h hb)

theorem okAt_iff_near {K : Int} {pos : List Nat} (hs : pos.Pairwise (· < ·)) {k : Nat}
    (hk : k < pos.length) :
    okAt K pos k = pos.any (fun q => decide (q ≠ pos.getD k 0 ∧
      |(pos.getD k 0 : Int) - (q : Int)| ≤ K)) := by
  rw [Bool.eq_iff_iff]
  simp only [okAt, Bool.or_eq_true, decide_eq_true_eq, List.any_eq_true]
  constructor
  · rintro (⟨h1, h2⟩ | ⟨h1, h2⟩)
    · have hlt := sorted_getD_lt hs (by omega : k - 1 < k) hk
      refine ⟨pos.getD (k - 1) 0, getD_mem _ _ (by omega), by omega, ?_⟩
      rw [abs_le]
      omega
    · have hlt := sorted_getD_lt hs (by omega : k < k + 1) (by omega)
      refine ⟨pos.getD (k + 1) 0, getD_mem _ _ (by omega), by omega, ?_⟩
      rw [abs_le]
      omega
  · rintro ⟨q, hq, hne, habs⟩
    rw [abs_le] at habs
    obtain ⟨k', hk'⟩ := List.mem_iff_getElem?.1 hq
    have hk'lt : k' < pos.length := (List.getElem?_eq_some.1 hk').1
    have hq' : pos.getD k' 0 = q := getD_of_getElem? 0 hk'
    subst hq'
    have hkk : k' ≠ k := by
      intro e
      subst e
      exact hne rfl
    rcases Nat.lt_or_ge k' k with hlt | hge
    · left
      have h1 := sorted_getD_le hs (by omega : k' ≤ k - 1) (by omega)
      have h2 := sorted_getD_lt hs (by omega : k - 1 < k) hk
      exact ⟨by omega, by omega⟩
    · right
      have h1 := sorted_getD_le hs (by omega : k + 1 ≤ k') hk'lt
      have h2 := sorted_getD_lt hs (by omega : k < k + 1) (by omega)
      exact ⟨by omega, by omega⟩

theorem freqOf_eq_nearCount (K : Int) {pos : List Nat} (hs : pos.Pairwise (· < ·)) :
    freqOf K pos = nearCount K pos := by
  rw [freqOf_eq_filter]
  unfold nearCount
  have h1 := congrArg (fun l => (l.filter (fun p => pos.any (fun q =>
    decide (q ≠ p ∧ |(p : Int) - (q : Int)| ≤ K)))).length) (eq_map_getD pos)
  simp only at h1
  rw [h1, List.filter_map, List.length_map]
  congr 1
  apply List.filter_congr
  intro k hk
  rw [List.mem_range] at hk
  rw [okAt_iff_near hs hk]
  rfl

theorem clusterPositions_sorted (d : DSU) (text_ids : List Nat) (r : Nat) :
    (clusterPositions d text_ids r).Pairwise (· < ·) :=
  List.Pairwise.filter _ (List.pairwise_lt_range _)

theorem root_some_lt {d : DSU} (hd : d.WF) {i r : Nat} (hi : i < d.parent.length)
    (h : d.root i = some r) : r < d.parent.length :=
  ((root_eq_some_iff hd hi).1 h).root_lt

theorem find_root {d0 d : DSU} (hd0 : d0.WF) (hd : d.WF) (hc : Compress d0.parent d.parent)
    {i : Nat} (hi : i < d0.parent.length) :
    ∃ d' r, d.find i = some (d', r) ∧ d0.root i = some r ∧ d'.WF ∧
      Compress d0.parent d'.parent := by
  obtain ⟨d', r, h1, h2, h3, h4, _⟩ := find_spec hd (hc.1.symm ▸ hi)
  exact ⟨d', r, h1, (root_eq_some_iff hd0 hi).2 ((hc.rootOf_iff hd0.1).1 h2), h3,
    hc.comp hd0.1 h4⟩

theorem getD_set_self {α : Type} (l : List α) (d a : α) {i : Nat} (h : i < l.length) :
    (l.set i a).getD i d = a := by
  rw [List.getD_eq_getElem?_getD, List.getElem?_set_self h]
  rfl

theorem getD_set_ne {α : Type} (l : List α) (d a : α) {i j : Nat} (h : i ≠ j) :
    (l.set i a).getD j d = l.getD j d := by
  rw [List.getD_eq_getElem?_getD, List.getElem?_set_ne h, List.getD_eq_getElem?_getD]

theorem groupPositions_spec {d : DSU} (hd : d.WF) {text_ids : List Nat}
    (ht : ∀ id ∈ text_ids, id < d.parent.length) :
    ∃ d1 positions, groupPositions d d.parent.length text_ids = some (d1, positions) ∧
      d1.WF ∧ Compress d.parent d1.parent ∧
      ∀ r, r < d.parent.length → positions.getD r [] = clusterPositions d text_ids r := by
  obtain ⟨⟨d1, positions⟩, h1, h2, h3, _, h5⟩ := range_foldlM_inv (groupStep text_ids)
    (fun k st => st.1.WF ∧ Compress d.parent st.1.parent ∧ st.2.length = d.parent.length ∧
      ∀ r, r < d.parent.length → st.2.getD r [] = (List.range k).filter
        (fun p => decide (d.root (text_ids.getD p 0) = some r)))
    text_ids.length (d, List.replicate d.parent.length [])
    ⟨hd, Compress.same_list _, by simp, by
      intro r hr
      rw [List.getD_eq_getElem?_getD, List.getElem?_replicate, if_pos hr]
      rfl⟩ (by
    rintro k ⟨d', pos⟩ hk ⟨hw, hc, hl, hp⟩
    have hid : text_ids.getD k 0 < d.parent.length := ht _ (getD_mem _ _ hk)
    obtain ⟨d2, root, e1, e2, e3, e4⟩ := find_root hd hw hc hid
    have hroot : root < d.parent.length := root_some_lt hd hid e2
    refine ⟨(d2, pos.set root (pos.getD root [] ++ [k])), by
      simp only [groupStep, e1], e3, e4, by simpa using hl, ?_⟩
    intro r hr
    rw [List.range_succ, List.filter_append]
    by_cases hrr : root = r
    · subst hrr
      simp only at hl hp ⊢
      rw [getD_set_self _ _ _ (hl.symm ▸ hr), hp root hr]
      simp [-List.getD_eq_getElem?_getD, List.filter_cons, e2]
    · simp only at hl hp ⊢
      rw [getD_set_ne _ _ _ hrr, hp r hr]
      simp [-List.getD_eq_getElem?_getD, List.filter_cons, e2, hrr])
  exact ⟨d1, positions, h1, h2, h3, h5⟩

theorem lookup_append {κ ν : Type} [DecidableEq κ] (k : κ) (m m' : List (κ × ν)) :
    lookup k (m ++ m') = match lookup k m with
      | some x => some x
      | none => lookup k m' := by
  induction m with
  | nil => simp [lookup]
  | cons e m ih =>
    by_cases h1 : e.1 = k
    · simp [lookup, h1]
    · simp [lookup, h1, ih]

theorem lookup_scoreEntries (K : Int) (positions : List (List Nat)) (n r : Nat) :
    lookup r ((List.range n).filterMap (scoreEntry K positions)) =
      if r < n ∧ 0 < freqOf K (positions.getD r []) then some (freqOf K (positions.getD r []))
      else none := by
  induction n with
  | zero => simp [lookup]
  | succ n ih =>
    rw [List.range_succ, List.filterMap_append, lookup_append, ih]
    by_cases h1 : r < n ∧ 0 < freqOf K (positions.getD r [])
    · rw [if_pos h1, if_pos ⟨by omega, h1.2⟩]
    · rw [if_neg h1]
      by_cases h2 : 0 < freqOf K (positions.getD n [])
      · by_cases h3 : n = r
        · subst h3
          simp [-List.getD_eq_getElem?_getD, scoreEntry, h2, lookup]
        · have h4 : ¬ (r < n + 1 ∧ 0 < freqOf K (positions.getD r [])) := by omega
          rw [if_neg h4]
          simp [-List.getD_eq_getElem?_getD, scoreEntry, h2, lookup, h3]
      · have h4 : ¬ (r < n + 1 ∧ 0 < freqOf K (positions.getD r [])) := by
          intro h
          have : r = n := by omega
          subst this
          exact h2 h.2
        rw [if_neg h4]
        simp [-List.getD_eq_getElem?_getD, scoreEntry, h2, lookup]

theorem scoreClusters_eq (K : Int) (n : Nat) (positions : List (List Nat)) :
    scoreClusters K n positions = (List.range n).filterMap (scoreEntry K positions) := by
  unfold scoreClusters
  refine range_foldl_inv (scoreStep K positions)
    (fun k gf => gf = (List.range k).filterMap (scoreEntry K positions)) n [] rfl ?_
  intro k gf _ hgf
  rw [List.range_succ, List.filterMap_append, ← hgf]
  have hnew : lookup k gf = none := by
    rw [hgf, lookup_scoreEntries, if_neg (by omega)]
  unfold scoreStep
  by_cases h1 : positions.getD k [] = []
  · have h0 : freqOf K (positions.getD k []) = 0 := by
      rw [h1]
      rfl
    have h00 : freqOf K [] = 0 := rfl
    simp [-List.getD_eq_getElem?_getD, h1, scoreEntry, h00]
  · by_cases h2 : freqOf K (positions.getD k []) > 0
    · simp only [h1, h2, if_false, if_true]
      rw [assign_of_new _ hnew]
      simp [-List.getD_eq_getElem?_getD, scoreEntry, h2]
    · simp only [h1, h2, if_false]
      simp [-List.getD_eq_getElem?_getD, scoreEntry, h2]

/-! ## String order and the comparator -/

theorem strLt_irrefl (a : List Nat) : strLt a a = false := by
  induction a with
  | nil => rfl
  | cons x a ih => simp [strLt, ih]

theorem strLt_trans {a b c : List Nat} (h1 : strLt a b = true) (h2 : strLt b c = true) :
    strLt a c = true := by
  induction a generalizing b c with
  | nil =>
    cases c with
    | nil => cases b <;> simp [strLt] at h2
    | cons z c => rfl
  | cons x a ih =>
    cases b with
    | nil => simp [strLt] at h1
    | cons y b =>
      cases c with
      | nil => simp [strLt] at h2
      | cons z c =>
        simp only [strLt] at h1 h2 ⊢
        split_ifs at h1 h2 ⊢ <;> first | rfl | omega | exact ih h1 h2

theorem strLt_asymm {a b : List Nat} (h : strLt a b = true) : strLt b a = false := by
  cases hb : strLt b a with
  | false => rfl
  | true =>
    have := strLt_trans h hb
    rw [strLt_irrefl] at this
    exact Bool.noConfusion this

theorem strLt_connex {a b : List Nat} (h1 : strLt a b = false) (h2 : strLt b a = false) :
    a = b := by
  induction a generalizing b with
  | nil =>
    cases b with
    | nil => rfl
    | cons y b => simp [strLt] at h1
  | cons x a ih =>
    cases b with
    | nil => simp [strLt] at h2
    | cons y b =>
      simp only [strLt] at h1 h2
      split_ifs at h1 h2
      have hxy : x = y := by omega
      rw [hxy, ih h1 h2]

theorem cmp_irrefl (a : GroupResult) : cmp a a = false := by
  simp [cmp, strLt_irrefl]

theorem cmp_eq_true_iff (a b : GroupResult) :
    cmp a b = true ↔ b.count < a.count ∨ (a.count = b.count ∧ strLt a.rep b.rep = true) := by
  unfold cmp
  by_cases h : a.count = b.count
  · simp [h]
  · simp only [ne_eq, h, not_false_eq_true, if_true, decide_eq_true_eq, false_and, or_false]

theorem cmp_trans {a b c : GroupResult} (h1 : cmp a b = true) (h2 : cmp b c = true) :
    cmp a c = true := by
  rw [cmp_eq_true_iff] at h1 h2 ⊢
  rcases h1 with h1 | ⟨h1, h1'⟩ <;> rcases h2 with h2 | ⟨h2, h2'⟩
  · exact Or.inl (by omega)
  · exact Or.inl (by omega)
  · exact Or.inl (by omega)
  · exact Or.inr ⟨by omega, strLt_trans h1' h2'⟩

theorem cmp_asymm {a b : GroupResult} (h : cmp a b = true) : cmp b a = false := by
  cases hb : cmp b a with
  | false => rfl
  | true =>
    have := cmp_trans h hb
    rw [cmp_irrefl] at this
    exact Bool.noConfusion this

theorem cmp_connex {a b : GroupResult} (h1 : cmp a b = false) (h2 : cmp b a = false) :
    a = b := by
  have e1 : ¬ (b.count < a.count ∨ (a.count = b.count ∧ strLt a.rep b.rep = true)) := by
    rw [← cmp_eq_true_iff, h1]
    exact Bool.noConfusion
  have e2 : ¬ (a.count < b.count ∨ (b.count = a.count ∧ strLt b.rep a.rep = true)) := by
    rw [← cmp_eq_true_iff, h2]
    exact Bool.noConfusion
  have hc : a.count = b.count := by omega
  have hr : a.rep = b.rep := by
    apply strLt_connex
    · cases h : strLt a.rep b.rep with
      | false => rfl
      | true => exact absurd (Or.inr ⟨hc, h⟩) e1
    · cases h : strLt b.rep a.rep with
      | false => rfl
      | true => exact absurd (Or.inr ⟨hc.symm, h⟩) e2
  cases a
  cases b
  simp only at hc hr
  rw [hc, hr]

theorem cmp_le_trans {a b c : GroupResult} (h1 : cmp b a = false) (h2 : cmp c b = false) :
    cmp c a = false := by
  cases h : cmp c a with
  | false => rfl
  | true =>
    cases hab : cmp a b with
    | false =>
      have := cmp_connex hab h1
      subst this
      rw [h] at h2
      exact Bool.noConfusion h2
    | true =>
      rw [cmp_trans h hab] at h2
      exact Bool.noConfusion h2

/-! ## `std::sort` -/

theorem insertResult_perm (x : GroupResult) (l : List GroupResult) :
    (insertResult x l).Perm (x :: l) := by
  induction l with
  | nil => exact List.Perm.refl _
  | cons y l ih =>
    unfold insertResult
    by_cases h : cmp x y = true
    · rw [if_pos h]
    · rw [if_neg h]
      exact ((List.perm_cons y).2 ih).trans (List.Perm.swap x y l)

theorem sortResults_perm (l : List GroupResult) : (sortResults l).Perm l := by
  induction l with
  | nil => exact List.Perm.refl _
  | cons x l ih =>
    exact (insertResult_perm x _).trans ((List.perm_cons x).2 ih)

theorem insertResult_sorted (x : GroupResult) {l : List GroupResult}
    (h : l.Pairwise (fun a b => cmp b a = false)) :
    (insertResult x l).Pairwise (fun a b => cmp b a = false) := by
  induction l with
  | nil => exact List.pairwise_singleton _ _
  | cons y l ih =>
    rw [List.pairwise_cons] at h
    unfold insertResult
    by_cases hc : cmp x y = true
    · rw [if_pos hc]
      refine List.pairwise_cons.2 ⟨?_, List.pairwise_cons.2 h⟩
      intro z hz
      rw [List.mem_cons] at hz
      rcases hz with hz | hz
      · rw [hz]
        exact cmp_asymm hc
      · exact cmp_le_trans (cmp_asymm hc) (h.1 z hz)
    · rw [if_neg hc]
      refine List.pairwise_cons.2 ⟨?_, ih h.2⟩
      intro z hz
      rw [(insertResult_perm x l).mem_iff, List.mem_cons] at hz
      rcases hz with hz | hz
      · rw [hz]
        simpa using hc
      · exact h.1 z hz

theorem sortResults_sorted (l : List GroupResult) :
    (sortResults l).Pairwise (fun a b => cmp b a = false) := by
  induction l with
  | nil => exact List.Pairwise.nil
  | cons x l ih => exact insertResult_sorted x ih

theorem sortResults_unique {l l' : List GroupResult} (h : l'.Perm l) :
    sortResults l' = sortResults l := by
  haveI : IsAntisymm GroupResult (fun a b => cmp b a = false) :=
    ⟨fun _ _ h1 h2 => cmp_connex h2 h1⟩
  exact List.eq_of_perm_of_sorted (((sortResults_perm l').trans h).trans (sortResults_perm l).symm)
    (sortResults_sorted l') (sortResults_sorted l)

/-! ## The Reporter -/

theorem RepsInv.keep {d : DSU} {wordlist : List (List Nat)} {gf : List (Nat × Nat)} {k : Nat}
    {reps : List (Nat × List Nat)} (h : RepsInv d wordlist gf k reps) {root : Nat}
    (hroot : d.root k = some root)
    (hcase : lookup root gf = none ∨
      ∃ cur, lookup root reps = some cur ∧ strLt (wordlist.getD k []) cur = false) :
    RepsInv d wordlist gf (k + 1) reps := by
  constructor
  · intro r w hw
    obtain ⟨h1, ⟨i, hi, h2, h3⟩, h4⟩ := h.stored r w hw
    refine ⟨h1, ⟨i, by omega, h2, h3⟩, ?_⟩
    intro i' hi' hr
    rcases Nat.lt_or_ge i' k with hlt | hge
    · exact h4 i' hlt hr
    · have : i' = k := by omega
      subst this
      rw [hroot] at hr
      cases hr
      rcases hcase with hc | ⟨cur, hc1, hc2⟩
      · rw [hc] at h1
        exact Bool.noConfusion h1
      · rw [hc1] at hw
        cases hw
        exact hc2
  · intro r hr i hi hri
    rcases Nat.lt_or_ge i k with hlt | hge
    · exact h.missing r hr i hlt hri
    · have : i = k := by omega
      subst this
      rw [hroot] at hri
      cases hri
      rcases hcase with hc | ⟨cur, hc1, _⟩
      · exact hc
      · rw [hc1] at hr
        exact Option.noConfusion hr

theorem RepsInv.store {d : DSU} {wordlist : List (List Nat)} {gf : List (Nat × Nat)} {k : Nat}
    {reps : List (Nat × List Nat)} (h : RepsInv d wordlist gf k reps) {root : Nat}
    (hroot : d.root k = some root) (hgf : (lookup root gf).isSome = true)
    (hcase : lookup root reps = none ∨
      ∃ cur, lookup root reps = some cur ∧ strLt (wordlist.getD k []) cur = true) :
    RepsInv d wordlist gf (k + 1) (assign root (wordlist.getD k []) reps) := by
  constructor
  · intro r w hw
    by_cases hr : root = r
    · subst hr
      rw [lookup_assign_self] at hw
      cases hw
      refine ⟨hgf, ⟨k, by omega, hroot, rfl⟩, ?_⟩
      intro i hi hri
      rcases Nat.lt_or_ge i k with hlt | hge
      · rcases hcase with hc | ⟨cur, hc1, hc2⟩
        · rw [h.missing root hc i hlt hri] at hgf
          exact Bool.noConfusion hgf
        · have hmin := (h.stored root cur hc1).2.2 i hlt hri
          cases hlt' : strLt (wordlist.getD i []) (wordlist.getD k []) with
          | false => rfl
          | true =>
            rw [strLt_trans hlt' hc2] at hmin
            exact Bool.noConfusion hmin
      · have : i = k := by omega
        subst this
        exact strLt_irrefl _
    · rw [lookup_assign_ne hr] at hw
      obtain ⟨h1, ⟨i, hi, h2, h3⟩, h4⟩ := h.stored r w hw
      refine ⟨h1, ⟨i, by omega, h2, h3⟩, ?_⟩
      intro i' hi' hri
      rcases Nat.lt_or_ge i' k with hlt | hge
      · exact h4 i' hlt hri
      · have : i' = k := by omega
        subst this
        rw [hroot] at hri
        exact absurd (Option.some.inj hri) hr
  · intro r hr i hi hri
    by_cases hrr : root = r
    · subst hrr
      rw [lookup_assign_self] at hr
      exact Option.noConfusion hr
    · rw [lookup_assign_ne hrr] at hr
      rcases Nat.lt_or_ge i k with hlt | hge
      · exact h.missing r hr i hlt hri
      · have : i = k := by omega
        subst this
        rw [hroot] at hri
        exact absurd (Option.some.inj hri) hrr

theorem repStep_spec {d0 d : DSU} (hd0 : d0.WF) (hd : d.WF)
    (hc : Compress d0.parent d.parent) {wordlist : List (List Nat)} {gf : List (Nat × Nat)}
    {reps : List (Nat × List Nat)} {k : Nat} (hk : k < d0.parent.length)
    (hinv : RepsInv d0 wordlist gf k reps) :
    ∃ d' reps', repStep wordlist gf (d, reps) k = some (d', reps') ∧ d'.WF ∧
      Compress d0.parent d'.parent ∧ RepsInv d0 wordlist gf (k + 1) reps' := by
  obtain ⟨d', root, e1, e2, e3, e4⟩ := find_root hd0 hd hc hk
  cases hgf : lookup root gf with
  | none =>
    exact ⟨d', reps, by simp [repStep, e1, hgf], e3, e4, hinv.keep e2 (Or.inl hgf)⟩
  | some c =>
    have hsome : (lookup root gf).isSome = true := by rw [hgf]; rfl
    cases hrep : lookup root reps with
    | none =>
      exact ⟨d', _, by simp only [repStep, e1, hgf, Option.isSome_some, if_true, hrep], e3, e4,
        hinv.store e2 hsome (Or.inl hrep)⟩
    | some cur =>
      by_cases hlt : strLt (wordlist.getD k []) cur = true
      · exact ⟨d', _, by
          simp only [repStep, e1, hgf, Option.isSome_some, if_true, hrep, hlt], e3, e4,
          hinv.store e2 hsome (Or.inr ⟨cur, hrep, hlt⟩)⟩
      · exact ⟨d', reps, by
          simp only [repStep, e1, hgf, Option.isSome_some, if_true, hrep, hlt,
            Bool.false_eq_true, if_false], e3, e4,
          hinv.keep e2 (Or.inr ⟨cur, hrep, by simpa using hlt⟩)⟩

theorem pickReps_spec {d0 d : DSU} (hd0 : d0.WF) (hd : d.WF)
    (hc : Compress d0.parent d.parent) {wordlist : List (List Nat)}
    (hn : wordlist.length = d0.parent.length) (gf : List (Nat × Nat)) :
    ∃ d' reps, pickReps d wordlist gf = some (d', reps) ∧
      RepsInv d0 wordlist gf wordlist.length reps := by
  obtain ⟨⟨d', reps⟩, h1, _, _, h4⟩ := range_foldlM_inv (repStep wordlist gf)
    (fun k st => st.1.WF ∧ Compress d0.parent st.1.parent ∧ RepsInv d0 wordlist gf k st.2)
    wordlist.length (d, [])
    ⟨hd, hc, ⟨fun r w h => by simp [lookup] at h,
      fun r _ i hi _ => absurd hi (Nat.not_lt_zero _)⟩⟩ (by
    rintro k ⟨d1, reps⟩ hk ⟨hw, hcc, hinv⟩
    obtain ⟨d', reps', e1, e2, e3, e4⟩ := repStep_spec hd0 hw hcc (hn ▸ hk) hinv
    exact ⟨(d', reps'), e1, e2, e3, e4⟩)
  exact ⟨d', reps, h1, h4⟩

/-! ## The whole run -/

theorem run_spec (K : Int) (tokens : List (List Nat)) :
    ∃ R, run K tokens = some R ∧ RunInv K tokens R := by
  have hv := readInput_inv tokens
  by_cases he : (readInput tokens).wordlist = []
  · have hrun : run K tokens = some (Run.mk (readInput tokens) (DSU.new 0) [] [] [] []) := by
      simp only [run, he, if_true]
    have hbuild : buildClusters (readInput tokens) = some (Builder.mk [] (DSU.new 0)) := by
      simp [buildClusters, he]
    refine ⟨_, hrun, ⟨rfl, new_wf 0, by simp [DSU.new, he], ⟨_, hbuild, rfl⟩, ?_,
      by simp [he], ?_, rfl⟩⟩
    · intro r hr
      simp [he] at hr
    · exact ⟨fun r w h => by simp [lookup] at h, fun r _ i hi _ => by simp [he] at hi⟩
  · obtain ⟨b, hb, hinv, _⟩ := buildClusters_spec hv
    have ht : ∀ id ∈ (readInput tokens).text_ids, id < b.dsu.parent.length := by
      intro id hid
      rw [hinv.len]
      exact hv.text id hid
    obtain ⟨d1, positions, hg, hw1, hc1, hpos⟩ := groupPositions_spec hinv.wf ht
    rw [hinv.len] at hg hpos
    obtain ⟨d2, reps, hp, hreps⟩ := pickReps_spec hinv.wf hw1 hc1 hinv.len.symm
      (scoreClusters K (readInput tokens).wordlist.length positions)
    have hrun : run K tokens = some (Run.mk (readInput tokens) b.dsu positions
        (scoreClusters K (readInput tokens).wordlist.length positions) reps
        (sortResults (buildResults
          (scoreClusters K (readInput tokens).wordlist.length positions) reps))) := by
      simp only [run, he, if_false, hb, hg, hp]
    exact ⟨_, hrun, ⟨rfl, hinv.wf, hinv.len, ⟨b, hb, rfl⟩, hpos, scoreClusters_eq _ _ _,
      hreps, rfl⟩⟩

theorem RunInv.count_eq {K : Int} {tokens : List (List Nat)} {R : Run}
    (h : RunInv K tokens R) {r : Nat} (hr : r < R.vocab.wordlist.length) :
    R.count r = freqOf K (R.positions.getD r []) := by
  unfold Run.count
  rw [h.freq, lookup_scoreEntries]
  by_cases h0 : 0 < freqOf K (R.positions.getD r [])
  · rw [if_pos ⟨hr, h0⟩]
    rfl
  · rw [if_neg (fun hh => h0 hh.2)]
    show 0 = _
    omega

theorem RunInv.lookup_freq {K : Int} {tokens : List (List Nat)} {R : Run}
    (h : RunInv K tokens R) {r c : Nat} (hc : lookup r R.group_freq = some c) :
    r < R.vocab.wordlist.length ∧ 0 < c ∧ R.count r = c := by
  have hc' := hc
  rw [h.freq, lookup_scoreEntries] at hc'
  by_cases h0 : r < R.vocab.wordlist.length ∧ 0 < freqOf K (R.positions.getD r [])
  · rw [if_pos h0] at hc'
    cases hc'
    exact ⟨h0.1, h0.2, by rw [Run.count, hc]; rfl⟩
  · rw [if_neg h0] at hc'
    exact Option.noConfusion hc'

theorem RunInv.root_of_count {K : Int} {tokens : List (List Nat)} {R : Run}
    (h : RunInv K tokens R) {r : Nat} (hr : r < R.vocab.wordlist.length)
    (hc : 0 < R.count r) : R.dsu.root r = some r := by
  rw [h.count_eq hr, h.positions r hr] at hc
  have hne : clusterPositions R.dsu R.vocab.text_ids r ≠ [] := by
    intro e
    rw [e] at hc
    exact Nat.lt_irrefl 0 hc
  obtain ⟨p, hp⟩ := List.exists_mem_of_ne_nil _ hne
  unfold clusterPositions at hp
  rw [List.mem_filter, decide_eq_true_eq, List.mem_range] at hp
  have hv : VocabInv R.vocab := h.vocab ▸ readInput_inv tokens
  have hid : R.vocab.text_ids.getD p 0 < R.dsu.parent.length := by
    rw [h.len]
    exact hv.text _ (getD_mem _ _ hp.1)
  have := ((root_eq_some_iff h.wf hid).1 hp.2).root_root
  exact (root_eq_some_iff h.wf (h.len.symm ▸ hr)).2 this

theorem RunInv.rep_spec {K : Int} {tokens : List (List Nat)} {R : Run}
    (h : RunInv K tokens R) {r : Nat} (hr : r < R.vocab.wordlist.length)
    (hc : 0 < R.count r) :
    lookup r R.group_reps = some (R.rep r) ∧
      (∃ i, i < R.vocab.wordlist.length ∧ R.dsu.root i = some r ∧
        R.vocab.wordlist.getD i [] = R.rep r) ∧
      ∀ i, i < R.vocab.wordlist.length → R.dsu.root i = some r →
        strLt (R.vocab.wordlist.getD i []) (R.rep r) = false := by
  have hroot := h.root_of_count hr hc
  cases hl : lookup r R.group_reps with
  | none =>
    have := h.reps.missing r hl r hr hroot
    rw [Run.count, this] at hc
    exact absurd hc (Nat.lt_irrefl 0)
  | some w =>
    have hw : R.rep r = w := by rw [Run.rep, hl]; rfl
    rw [hw]
    exact ⟨rfl, (h.reps.stored r w hl).2⟩

theorem RunInv.vocabInv {K : Int} {tokens : List (List Nat)} {R : Run}
    (h : RunInv K tokens R) : VocabInv R.vocab :=
  h.vocab ▸ readInput_inv tokens

theorem RunInv.count_zero {K : Int} {tokens : List (List Nat)} {R : Run}
    (h : RunInv K tokens R) {r : Nat} (hr : R.vocab.wordlist.length ≤ r) : R.count r = 0 := by
  unfold Run.count
  rw [h.freq, lookup_scoreEntries, if_neg (by omega)]
  rfl

theorem RunInv.rep_inj {K : Int} {tokens : List (List Nat)} {R : Run}
    (h : RunInv K tokens R) {r r' : Nat} (hr : r < R.vocab.wordlist.length)
    (hc : 0 < R.count r) (hr' : r' < R.vocab.wordlist.length) (hc' : 0 < R.count r')
    (he : R.rep r = R.rep r') : r = r' := by
  obtain ⟨_, ⟨i, hi, h1, h2⟩, _⟩ := h.rep_spec hr hc
  obtain ⟨_, ⟨i', hi', h1', h2'⟩, _⟩ := h.rep_spec hr' hc'
  have := wordlist_inj h.vocabInv hi hi' (by rw [h2, h2', he])
  subst this
  rw [h1] at h1'
  exact Option.some.inj h1'

theorem filterMap_eq_map_filter {α β : Type} (g : α → Option β) (p : α → Bool) (f : α → β)
    (l : List α) (h : ∀ x ∈ l, g x = if p x = true then some (f x) else none) :
    l.filterMap g = (l.filter p).map f := by
  induction l with
  | nil => rfl
  | cons x l ih =>
    have hx := h x (List.mem_cons_self _ _)
    have hl := ih (fun y hy => h y (List.mem_cons_of_mem _ hy))
    by_cases hp : p x = true
    · rw [if_pos hp] at hx
      rw [List.filterMap_cons_some hx, List.filter_cons_of_pos hp, List.map_cons, hl]
    · rw [if_neg hp] at hx
      rw [List.filterMap_cons_none hx, List.filter_cons_of_neg hp, hl]

theorem RunInv.group_freq_eq {K : Int} {tokens : List (List Nat)} {R : Run}
    (h : RunInv K tokens R) :
    R.group_freq = ((List.range R.vocab.wordlist.length).filter
      (fun r => decide (0 < R.count r))).map (fun r => (r, R.count r)) := by
  have h1 := h.freq
  rw [filterMap_eq_map_filter _ (fun r => decide (0 < R.count r)) (fun r => (r, R.count r))] at h1
  · exact h1
  · intro r hr
    rw [List.mem_range] at hr
    rw [h.count_eq hr]
    simp only [scoreEntry, decide_eq_true_eq]

theorem RunInv.buildResults_eq {K : Int} {tokens : List (List Nat)} {R : Run}
    (h : RunInv K tokens R) :
    buildResults R.group_freq R.group_reps =
      ((List.range R.vocab.wordlist.length).filter (fun r => decide (0 < R.count r))).map
        (fun r => GroupResult.mk (R.rep r) (R.count r)) := by
  unfold buildResults
  conv_lhs => rw [h.group_freq_eq]
  rw [List.map_map]
  rfl

theorem RunInv.results_perm {K : Int} {tokens : List (List Nat)} {R : Run}
    (h : RunInv K tokens R) :
    R.results.Perm (((List.range R.vocab.wordlist.length).filter
      (fun r => decide (0 < R.count r))).map (fun r => GroupResult.mk (R.rep r) (R.count r))) := by
  rw [h.results, ← h.buildResults_eq]
  exact sortResults_perm _

theorem RunInv.reps_nodup {K : Int} {tokens : List (List Nat)} {R : Run}
    (h : RunInv K tokens R) : (R.results.map GroupResult.rep).Nodup := by
  have hp := (h.results_perm).map GroupResult.rep
  rw [hp.nodup_iff, List.map_map]
  refine List.Nodup.map_on ?_ (List.Nodup.filter _ (List.nodup_range _))
  intro r hr r' hr' he
  rw [List.mem_filter, List.mem_range, decide_eq_true_eq] at hr hr'
  exact h.rep_inj hr.1 hr.2 hr'.1 hr'.2 he

theorem main_eq {K : Int} {tokens : List (List Nat)} {R : Run} (h : run K tokens = some R) :
    main K tokens = some (R.results.map emitLine) := by
  simp [main, h]

/-- C1: the run returns, and for every cluster (root `r`) the position list the scorer
builds is the ascending list of the cluster's TextSequence positions, and the count the
scorer computes from it by looking at the immediate predecessor and successor only is
the number of positions of the cluster that have another position of the cluster
within `K`. -/
theorem occurrence_count_refines (K : Int) (tokens : List (List Nat)) :
    ∃ R, run K tokens = some R ∧ ∀ r, r < R.vocab.wordlist.length →
      R.positions.getD r [] = clusterPositions R.dsu R.vocab.text_ids r ∧
      freqOf K (R.positions.getD r []) =
        nearCount K (clusterPositions R.dsu R.vocab.text_ids r) ∧
      R.count r = nearCount K (clusterPositions R.dsu R.vocab.text_ids r) := by
  obtain ⟨R, hR, h⟩ := run_spec K tokens
  refine ⟨R, hR, ?_⟩
  intro r hr
  have h1 := h.positions r hr
  have h2 : freqOf K (R.positions.getD r []) =
      nearCount K (clusterPositions R.dsu R.vocab.text_ids r) := by
    rw [h1]
    exact freqOf_eq_nearCount K (clusterPositions_sorted _ _ _)
  exact ⟨h1, h2, (h.count_eq hr).trans h2⟩

/-- C5: the run returns, and for every cluster with a nonzero occurrence count the
representative reported with that count is a normalized form (lower-case letters and
apostrophes) of a member of the cluster, and is equal to or lexicographically smaller
than the form of every member of the cluster. -/
theorem representative_is_smallest (K : Int) (tokens : List (List Nat)) :
    ∃ R, run K tokens = some R ∧ ∀ r, r < R.vocab.wordlist.length → 0 < R.count r →
      GroupResult.mk (R.rep r) (R.count r) ∈ R.results ∧
      (∃ i, i < R.vocab.wordlist.length ∧ R.dsu.root i = some r ∧
        R.vocab.wordlist.getD i [] = R.rep r) ∧
      (∀ c ∈ R.rep r, (97 ≤ c ∧ c ≤ 122) ∨ c = 39) ∧
      ∀ i, i < R.vocab.wordlist.length → R.dsu.root i = some r →
        R.rep r = R.vocab.wordlist.getD i [] ∨
          strLt (R.rep r) (R.vocab.wordlist.getD i []) = true := by
  obtain ⟨R, hR, h⟩ := run_spec K tokens
  refine ⟨R, hR, ?_⟩
  intro r hr hc
  obtain ⟨_, ⟨i, hi, h1, h2⟩, h3⟩ := h.rep_spec hr hc
  refine ⟨?_, ⟨i, hi, h1, h2⟩, ?_, ?_⟩
  · rw [h.results_perm.mem_iff, List.mem_map]
    exact ⟨r, by simp [hr, hc], rfl⟩
  · rw [← h2]
    exact (h.vocabInv.normal _ (getD_mem _ _ hi)).2
  · intro i' hi' hr'
    cases hlt : strLt (R.rep r) (R.vocab.wordlist.getD i' []) with
    | true => exact Or.inr rfl
    | false => exact Or.inl (strLt_connex hlt (h3 i' hi' hr'))

theorem append_sep_inj {x y u v : List Nat} (hx : 58 ∉ x) (hy : 58 ∉ y)
    (h : x ++ 58 :: u = y ++ 58 :: v) : x = y := by
  induction x generalizing y with
  | nil =>
    cases y with
    | nil => rfl
    | cons b y =>
      simp only [List.nil_append, List.cons_append, List.cons.injEq] at h
      exact absurd (List.mem_cons.2 (Or.inl h.1)) hy
  | cons a x ih =>
    cases y with
    | nil =>
      simp only [List.nil_append, List.cons_append, List.cons.injEq] at h
      exact absurd (List.mem_cons.2 (Or.inl h.1.symm)) hx
    | cons b y =>
      simp only [List.cons_append, List.cons.injEq] at h
      rw [h.1, ih (fun hm => hx (List.mem_cons_of_mem _ hm))
        (fun hm => hy (List.mem_cons_of_mem _ hm)) h.2]

theorem emitLine_rep_inj {a b : GroupResult} (ha : 58 ∉ a.rep) (hb : 58 ∉ b.rep)
    (h : emitLine a = emitLine b) : a.rep = b.rep := by
  unfold emitLine at h
  simp only [List.append_assoc, List.cons_append, List.nil_append] at h
  exact append_sep_inj ha hb h

theorem RunInv.results_rep {K : Int} {tokens : List (List Nat)} {R : Run}
    (h : RunInv K tokens R) {res : GroupResult} (hres : res ∈ R.results) :
    ∃ r, r < R.vocab.wordlist.length ∧ 0 < R.count r ∧ res = GroupResult.mk (R.rep r) (R.count r) := by
  rw [h.results_perm.mem_iff, List.mem_map] at hres
  obtain ⟨r, hr, he⟩ := hres
  rw [List.mem_filter, List.mem_range, decide_eq_true_eq] at hr
  exact ⟨r, hr.1, hr.2, he.symm⟩

theorem RunInv.results_no_colon {K : Int} {tokens : List (List Nat)} {R : Run}
    (h : RunInv K tokens R) {res : GroupResult} (hres : res ∈ R.results) : 58 ∉ res.rep := by
  obtain ⟨r, hr, hc, rfl⟩ := h.results_rep hres
  obtain ⟨_, ⟨i, hi, _, h2⟩, _⟩ := h.rep_spec hr hc
  intro hm
  have := (h.vocabInv.normal _ (getD_mem _ _ hi)).2 58 (by rw [h2]; exact hm)
  omega

theorem RunInv.lines_nodup {K : Int} {tokens : List (List Nat)} {R : Run}
    (h : RunInv K tokens R) : (R.results.map emitLine).Nodup := by
  have hn := h.reps_nodup
  refine List.Nodup.map_on ?_ (List.Nodup.of_map _ hn)
  intro a ha b hb he
  exact List.inj_on_of_nodup_map hn ha hb
    (emitLine_rep_inj (h.results_no_colon ha) (h.results_no_colon hb) he)

theorem freqOf_short (K : Int) {pos : List Nat} (h : pos.length < 2) : freqOf K pos = 0 := by
  unfold freqOf
  rw [if_neg (by omega)]

/-- C6: the run returns and `main` writes one line per record of `results`; up to order
these lines are one line `<representative>: <count>` for each cluster whose occurrence
count is nonzero, carrying the representative and the count of that cluster; the lines
are pairwise distinct, and a cluster with fewer than 2 positions has count 0, hence
no line. -/
theorem one_line_per_scored_cluster (K : Int) (tokens : List (List Nat)) :
    ∃ R lines, run K tokens = some R ∧ main K tokens = some lines ∧
      lines = R.results.map emitLine ∧
      lines.Perm (((List.range R.vocab.wordlist.length).filter
        (fun r => decide (0 < R.count r))).map
          (fun r => R.rep r ++ [58, 32] ++ (Nat.toDigits 10 (R.count r)).map Char.toNat)) ∧
      lines.Nodup ∧
      ∀ r, r < R.vocab.wordlist.length →
        (clusterPositions R.dsu R.vocab.text_ids r).length < 2 → R.count r = 0 := by
  obtain ⟨R, hR, h⟩ := run_spec K tokens
  refine ⟨R, _, hR, main_eq hR, rfl, ?_, h.lines_nodup, ?_⟩
  · have hp := h.results_perm.map emitLine
    rw [List.map_map] at hp
    exact hp
  · intro r hr hlen
    rw [h.count_eq hr, h.positions r hr]
    exact freqOf_short K hlen

/-- C7: the run returns and `main` writes the records of `results` in order; in that
order a record comes before another only if its count is greater, or the counts are
equal and its representative is lexicographically smaller. -/
theorem output_sorted (K : Int) (tokens : List (List Nat)) :
    ∃ R, run K tokens = some R ∧ main K tokens = some (R.results.map emitLine) ∧
      R.results.Pairwise (fun a b =>
        b.count < a.count ∨ (a.count = b.count ∧ strLt a.rep b.rep = true)) := by
  obtain ⟨R, hR, h⟩ := run_spec K tokens
  refine ⟨R, hR, main_eq hR, ?_⟩
  have hs : R.results.Pairwise (fun a b => cmp b a = false) := by
    rw [h.results]
    exact sortResults_sorted _
  have hn : R.results.Pairwise (fun a b => a ≠ b) := List.Nodup.of_map _ h.reps_nodup
  refine (hs.and hn).imp ?_
  intro a b hab
  rw [← cmp_eq_true_iff]
  cases hc : cmp a b with
  | true => rfl
  | false => exact absurd (cmp_connex hc hab.1) hab.2

/-- C8: the run returns, no two records of `results` (hence no two output lines) share
a representative, and the order of `results` does not depend on the order in which the
hash map is iterated: sorting any other arrangement of the records built from
`group_freq` gives the same `results`, and so does any arrangement of them that is
sorted under the comparator. -/
theorem representatives_distinct (K : Int) (tokens : List (List Nat)) :
    ∃ R, run K tokens = some R ∧ main K tokens = some (R.results.map emitLine) ∧
      (R.results.map GroupResult.rep).Nodup ∧
      (∀ l, l.Perm (buildResults R.group_freq R.group_reps) → sortResults l = R.results) ∧
      ∀ l, l.Perm (buildResults R.group_freq R.group_reps) →
        l.Pairwise (fun a b => cmp b a = false) → l = R.results := by
  obtain ⟨R, hR, h⟩ := run_spec K tokens
  refine ⟨R, hR, main_eq hR, h.reps_nodup, ?_, ?_⟩
  · intro l hl
    rw [h.results]
    exact sortResults_unique hl
  · intro l hl hs
    rw [h.results]
    haveI : IsAntisymm GroupResult (fun a b => cmp b a = false) :=
      ⟨fun _ _ h1 h2 => cmp_connex h2 h1⟩
    exact List.eq_of_perm_of_sorted (hl.trans (sortResults_perm _).symm) hs
      (sortResults_sorted _)

/-- C9: for a fixed token stream and windows `K1 ≤ K2`, both runs return with the same
vocabulary and the same clusters, and the occurrence count of every cluster with
window `K1` is at most its count with window `K2`. -/
theorem count_monotone_in_window (tokens : List (List Nat)) (K1 K2 : Int) (hK : K1 ≤ K2) :
    ∃ R1 R2, run K1 tokens = some R1 ∧ run K2 tokens = some R2 ∧ R1.vocab = R2.vocab ∧
      R1.dsu = R2.dsu ∧ ∀ r, R1.count r ≤ R2.count r := by
  obtain ⟨R1, hR1, h1⟩ := run_spec K1 tokens
  obtain ⟨R2, hR2, h2⟩ := run_spec K2 tokens
  have hv : R1.vocab = R2.vocab := h1.vocab.trans h2.vocab.symm
  have hd : R1.dsu = R2.dsu := by
    obtain ⟨b1, e1, e2⟩ := h1.built
    obtain ⟨b2, f1, f2⟩ := h2.built
    rw [hv, f1] at e1
    cases e1
    exact e2.symm.trans f2
  refine ⟨R1, R2, hR1, hR2, hv, hd, ?_⟩
  intro r
  rcases Nat.lt_or_ge r R1.vocab.wordlist.length with hr | hr
  · rw [h1.count_eq hr, h2.count_eq (hv ▸ hr), h1.positions r hr, h2.positions r (hv ▸ hr),
      hv, hd]
    exact freqOf_mono hK _
  · rw [h1.count_zero hr]
    exact Nat.zero_le _

/-! ## Concrete runs -/

/-- Witness of C1: on Scenario 2 with `K = 2` the cluster of root 1 holds the positions
0, 1, 3 and its count is 3. -/
theorem occurrence_count_refines_witness :
    ∃ R, run 2 scenario2 = some R ∧
      R.positions.getD 1 [] = [0, 1, 3] ∧ R.count 1 = 3 ∧
      nearCount 2 (clusterPositions R.dsu R.vocab.text_ids 1) = 3 := by
  obtain ⟨R, hR, h⟩ := occurrence_count_refines 2 scenario2
  have hrun : run 2 scenario2 =
      some (Run.mk ⟨[str "cat", str "cats", str "dog"],
          [(str "cat", 0), (str "cats", 1), (str "dog", 2)], [0, 1, 2, 0]⟩
        ⟨[1, 1, 2], [1, 2, 1]⟩ [[], [0, 1, 3], [2]] [(1, 3)] [(1, str "cat")]
        [⟨str "cat", 3⟩]) := by
    decide
  rw [hrun] at hR
  cases hR
  obtain ⟨_, _, h3⟩ := h 1 (by decide)
  exact ⟨_, hrun, rfl, rfl, h3.symm.trans rfl⟩

/-- Witness of C2: `cat` and `cot` differ at position 1 only and get the same root. -/
theorem single_substitution_same_cluster_witness :
    ∃ b, buildClusters (readInput [str "cat", str "cot"]) = some b ∧
      ∃ r, b.dsu.root 0 = some r ∧ b.dsu.root 1 = some r := by
  obtain ⟨b, hb, h⟩ := single_substitution_same_cluster [str "cat", str "cot"]
  refine ⟨b, hb, h 0 1 (by decide) (by decide) (by decide)
    ⟨by decide, 1, by decide, by decide, ?_⟩⟩
  intro j hj
  have hw : (readInput [str "cat", str "cot"]).wordlist = [str "cat", str "cot"] := by decide
  rw [hw]
  match j, hj with
  | 0, _ => rfl
  | 1, h => exact absurd rfl h
  | 2, _ => rfl
  | k + 3, _ => rfl

/-- Witness of C3: `cat` and `cats` get the same root. -/
theorem suffix_trim_same_cluster_witness :
    ∃ b, buildClusters (readInput scenario2) = some b ∧
      ∃ r, b.dsu.root 0 = some r ∧ b.dsu.root 1 = some r := by
  obtain ⟨b, hb, h⟩ := suffix_trim_same_cluster scenario2
  exact ⟨b, hb, h 0 1 (by decide) (by decide) (by decide) (Or.inl (by decide))⟩

/-- Witness of C4: `cats` and `cot` share a cluster, no rule relates them directly, and
they are joined through a third form. -/
theorem clusters_only_by_rules_witness :
    ∃ b, buildClusters (readInput [str "cat", str "cats", str "cot"]) = some b ∧
      Linked [str "cat", str "cats", str "cot"] (str "cats") (str "cot") ∧
      ∃ u, u ∈ [str "cat", str "cats", str "cot"] ∧ u ≠ str "cats" ∧ u ≠ str "cot" ∧
        Near (str "cats") u ∧ Linked [str "cat", str "cats", str "cot"] u (str "cot") := by
  obtain ⟨b, hb, h⟩ := clusters_only_by_rules [str "cat", str "cats", str "cot"]
  have h1 : (buildClusters (readInput [str "cat", str "cats", str "cot"])).bind
      (fun b => b.dsu.root 1) = some 1 := by decide
  have h2 : (buildClusters (readInput [str "cat", str "cats", str "cot"])).bind
      (fun b => b.dsu.root 2) = some 1 := by decide
  rw [hb] at h1 h2
  have hnear : ¬ Near (str "cats") (str "cot") := by
    rintro (⟨_, hl, _⟩ | ⟨_, h | h⟩ | ⟨_, h | h⟩)
    · exact absurd hl (by decide)
    · exact absurd h (by decide)
    · exact absurd h (by decide)
    · exact absurd h (by decide)
    · exact absurd h (by decide)
  obtain ⟨hl, hu⟩ := h 1 2 1 (by decide) (by decide) h1 h2
  exact ⟨b, hb, hl, hu (by decide) hnear⟩

/-- Witness of C5: on Scenario 2 the cluster of root 1 is reported under `cat`, which is
not greater than `cats`. -/
theorem representative_is_smallest_witness :
    ∃ R, run 2 scenario2 = some R ∧ R.rep 1 = str "cat" ∧
      GroupResult.mk (str "cat") 3 ∈ R.results ∧
      (str "cat" = str "cats" ∨ strLt (str "cat") (str "cats") = true) := by
  obtain ⟨R, hR, h⟩ := representative_is_smallest 2 scenario2
  have hrun : run 2 scenario2 =
      some (Run.mk ⟨[str "cat", str "cats", str "dog"],
          [(str "cat", 0), (str "cats", 1), (str "dog", 2)], [0, 1, 2, 0]⟩
        ⟨[1, 1, 2], [1, 2, 1]⟩ [[], [0, 1, 3], [2]] [(1, 3)] [(1, str "cat")]
        [⟨str "cat", 3⟩]) := by
    decide
  rw [hrun] at hR
  cases hR
  obtain ⟨h1, _, _, h4⟩ := h 1 (by decide) (by decide)
  exact ⟨_, hrun, rfl, h1, h4 1 (by decide) (by decide)⟩

/-- Witness of C6: on Scenario 2 the whole output is the line `cat: 3`; the cluster of
`dog` (root 2) has one position and count 0. -/
theorem one_line_per_scored_cluster_witness :
    ∃ R, run 2 scenario2 = some R ∧ main 2 scenario2 = some [str "cat: 3"] ∧
      R.count 2 = 0 := by
  obtain ⟨R, lines, hR, hm, _, _, _, h⟩ := one_line_per_scored_cluster 2 scenario2
  have hrun : run 2 scenario2 =
      some (Run.mk ⟨[str "cat", str "cats", str "dog"],
          [(str "cat", 0), (str "cats", 1), (str "dog", 2)], [0, 1, 2, 0]⟩
        ⟨[1, 1, 2], [1, 2, 1]⟩ [[], [0, 1, 3], [2]] [(1, 3)] [(1, str "cat")]
        [⟨str "cat", 3⟩]) := by
    decide
  rw [hrun] at hR
  cases hR
  exact ⟨_, hrun, by decide, h 2 (by decide) (by decide)⟩

/-- Witness of C7: on `1 b b a a` both clusters have count 2 and `a` is written first. -/
theorem output_sorted_witness :
    ∃ R, run 1 tieWords = some R ∧ main 1 tieWords = some [str "a: 2", str "b: 2"] ∧
      R.results.Pairwise (fun a b =>
        b.count < a.count ∨ (a.count = b.count ∧ strLt a.rep b.rep = true)) := by
  obtain ⟨R, hR, _, hp⟩ := output_sorted 1 tieWords
  exact ⟨R, hR, by decide, hp⟩

/-- Witness of C8: on `1 b b a a` the records taken in the reverse order sort to the
same `results`. -/
theorem representatives_distinct_witness :
    ∃ R, run 1 tieWords = some R ∧ (R.results.map GroupResult.rep).Nodup ∧
      sortResults (buildResults R.group_freq R.group_reps).reverse = R.results := by
  obtain ⟨R, hR, _, hn, hs, _⟩ := representatives_distinct 1 tieWords
  exact ⟨R, hR, hn, hs _ (List.reverse_perm _)⟩

/-- Witness of C9: Scenario 2 with the windows 1 and 2. -/
theorem count_monotone_in_window_witness :
    (1 : Int) ≤ 2 ∧ ∃ R1 R2, run 1 scenario2 = some R1 ∧ run 2 scenario2 = some R2 ∧
      R1.vocab = R2.vocab ∧ R1.dsu = R2.dsu ∧ ∀ r, R1.count r ≤ R2.count r :=
  ⟨by decide, count_monotone_in_window scenario2 1 2 (by decide)⟩

/-- Witness of C10: `Don't*42` normalizes to `don't`. -/
theorem normalize_keeps_letters_and_apostrophes_witness :
    normalize (str "Don't*42") = str "don't" ∧ 42 ∉ normalize (str "Don't*42") :=
  ⟨(normalize_keeps_letters_and_apostrophes (str "Don't*42")).1.trans (by decide),
    (normalize_keeps_letters_and_apostrophes (str "Don't*42")).2.2⟩

/-! ## Reachable states of the disjoint-set forest -/

theorem reachable_wf {n : Nat} {d : DSU} (h : Reachable n d) :
    d.WF ∧ d.parent.length = n := by
  induction h with
  | init => exact ⟨new_wf n, by simp [DSU.new]⟩
  | @find d d1 i r _ hi hf ih =>
    obtain ⟨d2, r2, e1, _, e3, e4, _⟩ := find_spec ih.1 (ih.2.symm ▸ hi)
    rw [hf] at e1
    cases e1
    exact ⟨e3, e4.1.trans ih.2⟩
  | @unite d d1 i j _ hi hj hu ih =>
    obtain ⟨d2, e1, e2, e3, _⟩ := unite_spec ih.1 (ih.2.symm ▸ hi) (ih.2.symm ▸ hj)
    rw [hu] at e1
    cases e1
    exact ⟨e2, e3.trans ih.2⟩

theorem chainDSU_reachable : Reachable 4 chainDSU := by
  have h1 : Reachable 4 (DSU.mk [0, 0, 2, 3] [2, 1, 1, 1]) :=
    Reachable.unite (i := 0) (j := 1) Reachable.init (by decide) (by decide) (by decide)
  have h2 : Reachable 4 (DSU.mk [0, 0, 2, 2] [2, 1, 2, 1]) :=
    Reachable.unite (i := 2) (j := 3) h1 (by decide) (by decide) (by decide)
  exact Reachable.unite (i := 1) (j := 3) h2 (by decide) (by decide) (by decide)

theorem parentIter_rootIn {p : List Nat} (k : Nat) :
    ∀ {m i r : Nat}, RootIn p m i r → RootIn p (m - k) (parentIter p k i) r := by
  induction k with
  | zero =>
    intro m i r h
    exact h
  | succ k ih =>
    intro m i r h
    cases h with
    | root hr =>
      have := ih (RootIn.root hr)
      show RootIn p _ (parentIter p k (p.getD i i)) _
      rw [getD_of_getElem? i hr]
      simpa using this
    | @step m0 _ j _ h1 h2 h3 =>
      have := ih h3
      show RootIn p _ (parentIter p k (p.getD i i)) _
      rw [getD_of_getElem? i h1, show m0 + 1 - (k + 1) = m0 - k by omega]
      exact this

theorem forest_onlySelfLoops {p : List Nat} (hp : Forest p) : OnlySelfLoops p := by
  intro i k hi hk hcyc
  obtain ⟨r, m, hm⟩ := hp i hi
  have h1 := parentIter_rootIn k hm
  rw [hcyc] at h1
  have hm0 : m = 0 := by
    have := (h1.determined hm).1
    omega
  subst hm0
  cases hm with
  | root h => exact h

theorem root_eq_iff_same {d : DSU} (hd : d.WF) {x y : Nat} (hx : x < d.parent.length)
    (hy : y < d.parent.length) : d.root x = d.root y ↔ Same d.parent x y := by
  obtain ⟨rx, hrx⟩ := hd.1 x hx
  constructor
  · intro h
    have h1 := (root_eq_some_iff hd hx).2 hrx
    rw [h] at h1
    exact ⟨rx, hrx, (root_eq_some_iff hd hy).1 h1⟩
  · rintro ⟨r, h1, h2⟩
    rw [(root_eq_some_iff hd hx).2 h1, (root_eq_some_iff hd hy).2 h2]

/-- C13: on every state reached from `DSU(n)` by `find` and `unite` calls on valid ids,
and for every valid id `i`, the call `find(i)` returns some root `r`; `find(r)` on the
state it leaves returns `r` again, and so does a further `find(i)`: evaluating
`find(find(i)) == find(i)` yields true. -/
theorem find_idempotent (n : Nat) (d : DSU) (i : Nat) (hd : Reachable n d) (hi : i < n) :
    ∃ d1 r d2 d3, d.find i = some (d1, r) ∧ d1.find r = some (d2, r) ∧
      d2.find i = some (d3, r) ∧ d.root r = some r := by
  obtain ⟨hwf, hlen⟩ := reachable_wf hd
  obtain ⟨d1, r, e1, e2, e3, e4, _⟩ := find_spec hwf (hlen.symm ▸ hi)
  have hr1 : RootOf d1.parent r r := e4.rootOf e2.root_root
  obtain ⟨d2, r2, f1, f2, f3, f4, _⟩ := find_spec e3 hr1.id_lt
  have hr2 : r2 = r := f2.unique hr1
  subst hr2
  have hi2 : RootOf d2.parent i r2 := f4.rootOf (e4.rootOf e2)
  obtain ⟨d3, r3, g1, g2, _⟩ := find_spec f3 hi2.id_lt
  have hr3 : r3 = r2 := g2.unique hi2
  subst hr3
  exact ⟨d1, r3, d2, d3, e1, f1, g1, (root_eq_some_iff hwf e2.root_lt).2 e2.root_root⟩

/-- C14: on every state reached from `DSU(n)` and for valid ids `a`, `b`, `c`, the calls
`unite(a,b)` then `unite(b,c)` return and leave `a`, `b`, `c` with one and the same
`find`; and `unite(b,a)` in place of `unite(a,b)` returns a state with the same
partition: two valid ids have equal roots in the one exactly when they have in the
other. -/
theorem unite_transitive_commutative (n : Nat) (d : DSU) (a b c : Nat) (hd : Reachable n d)
    (ha : a < n) (hb : b < n) (hc : c < n) :
    ∃ d1 d2 d3, d.unite a b = some d1 ∧ d1.unite b c = some d2 ∧ d.unite b a = some d3 ∧
      (∃ r, d2.root a = some r ∧ d2.root b = some r ∧ d2.root c = some r) ∧
      ∀ x y, x < n → y < n → (d1.root x = d1.root y ↔ d3.root x = d3.root y) := by
  obtain ⟨hwf, hlen⟩ := reachable_wf hd
  have ha' : a < d.parent.length := hlen.symm ▸ ha
  have hb' : b < d.parent.length := hlen.symm ▸ hb
  obtain ⟨d1, e1, e2, e3, e4⟩ := unite_spec hwf ha' hb'
  obtain ⟨d2, f1, f2, f3, f4⟩ := unite_spec e2 (e3.symm ▸ hb') (e3.symm ▸ hlen.symm ▸ hc)
  obtain ⟨d3, g1, g2, g3, g4⟩ := unite_spec hwf hb' ha'
  have haa : Same d.parent a a := Same.refl hwf.1 ha'
  have hbb : Same d.parent b b := Same.refl hwf.1 hb'
  have hab : Same d1.parent a b := (e4 a b).2 (Or.inr (Or.inl ⟨haa, hbb⟩))
  have hbb1 : Same d1.parent b b := Same.refl e2.1 (e3.symm ▸ hb')
  have hcc1 : Same d1.parent c c := Same.refl e2.1 (e3.symm ▸ hlen.symm ▸ hc)
  have hab2 : Same d2.parent a b := (f4 a b).2 (Or.inl hab)
  have hbc2 : Same d2.parent b c := (f4 b c).2 (Or.inr (Or.inl ⟨hbb1, hcc1⟩))
  refine ⟨d1, d2, d3, e1, f1, g1, ?_, ?_⟩
  · obtain ⟨r, h1, h2⟩ := hab2
    obtain ⟨r', h3, h4⟩ := hbc2
    have hrr : r = r' := h2.unique h3
    subst hrr
    exact ⟨r, (root_eq_some_iff f2 h1.id_lt).2 h1, (root_eq_some_iff f2 h2.id_lt).2 h2,
      (root_eq_some_iff f2 h4.id_lt).2 h4⟩
  · intro x y hx hy
    rw [root_eq_iff_same e2 (by omega) (by omega), root_eq_iff_same g2 (by omega) (by omega),
      e4, g4]
    constructor
    · rintro (h | h | h)
      · exact Or.inl h
      · exact Or.inr (Or.inr h)
      · exact Or.inr (Or.inl h)
    · rintro (h | h | h)
      · exact Or.inl h
      · exact Or.inr (Or.inr h)
      · exact Or.inr (Or.inl h)

/-- C18: on every state reached from `DSU(n)` and for valid ids `i`, `j`, the call
`find(i)` returns, the root `find(j)` yields on the state it leaves is the root it
yields on the state before, and the `size` vector is unchanged. -/
theorem find_keeps_partition (n : Nat) (d : DSU) (i j : Nat) (hd : Reachable n d)
    (hi : i < n) (hj : j < n) :
    ∃ d1 r, d.find i = some (d1, r) ∧ d1.size = d.size ∧
      ∃ rj, d.root j = some rj ∧ d1.root j = some rj := by
  obtain ⟨hwf, hlen⟩ := reachable_wf hd
  obtain ⟨d1, r, e1, _, e3, e4, e5⟩ := find_spec hwf (hlen.symm ▸ hi)
  obtain ⟨rj, hrj⟩ := hwf.1 j (hlen.symm ▸ hj)
  exact ⟨d1, r, e1, e5, rj, (root_eq_some_iff hwf hrj.id_lt).2 hrj,
    (root_eq_some_iff e3 (e4.rootOf hrj).id_lt).2 (e4.rootOf hrj)⟩

/-- C20: on every state reached from `DSU(n)` by `find` and `unite` calls on valid ids,
`parent` has `n` entries and is a forest whose only cycles are the self-loops at
roots; `find(i)` returns for every valid `i`, with a valid id `r` such that
`parent[r] == r` before and after the call; and the state left by `find` (path
compression) and by `unite` is again such a forest. -/
theorem find_terminates_on_forest (n : Nat) (d : DSU) (hd : Reachable n d) :
    d.parent.length = n ∧ Forest d.parent ∧ OnlySelfLoops d.parent ∧
      (∀ i, i < n → ∃ d1 r, d.find i = some (d1, r) ∧ r < n ∧ d.parent[r]? = some r ∧
        d1.parent[r]? = some r ∧ d1.parent.length = n ∧ Forest d1.parent ∧
        OnlySelfLoops d1.parent) ∧
      ∀ i j, i < n → j < n → ∃ d1, d.unite i j = some d1 ∧ d1.parent.length = n ∧
        Forest d1.parent ∧ OnlySelfLoops d1.parent := by
  obtain ⟨hwf, hlen⟩ := reachable_wf hd
  refine ⟨hlen, hwf.1, forest_onlySelfLoops hwf.1, ?_, ?_⟩
  · intro i hi
    obtain ⟨d1, r, e1, e2, e3, e4, _⟩ := find_spec hwf (hlen.symm ▸ hi)
    exact ⟨d1, r, e1, hlen ▸ e2.root_lt, e2.is_root, e4.root e2.is_root, e4.1.trans hlen,
      e3.1, forest_onlySelfLoops e3.1⟩
  · intro i j hi hj
    obtain ⟨d1, e1, e2, e3, _⟩ := unite_spec hwf (hlen.symm ▸ hi) (hlen.symm ▸ hj)
    exact ⟨d1, e1, e3.trans hlen, e2.1, forest_onlySelfLoops e2.1⟩

/-- Witness of C13: on the chain state `find(3)` returns 0 and compresses the path. -/
theorem find_idempotent_witness :
    Reachable 4 chainDSU ∧ chainDSU.find 3 = some (DSU.mk [0, 0, 0, 0] [4, 1, 2, 1], 0) ∧
      ∃ d1 r d2 d3, chainDSU.find 3 = some (d1, r) ∧ d1.find r = some (d2, r) ∧
        d2.find 3 = some (d3, r) ∧ chainDSU.root r = some r :=
  ⟨chainDSU_reachable, by decide, find_idempotent 4 chainDSU 3 chainDSU_reachable (by decide)⟩

/-- Witness of C14: on `DSU(3)` with the ids 0, 1, 2. -/
theorem unite_transitive_commutative_witness :
    ∃ d1 d2 d3, (DSU.new 3).unite 0 1 = some d1 ∧ d1.unite 1 2 = some d2 ∧
      (DSU.new 3).unite 1 0 = some d3 ∧
      (∃ r, d2.root 0 = some r ∧ d2.root 1 = some r ∧ d2.root 2 = some r) ∧
      ∀ x y, x < 3 → y < 3 → (d1.root x = d1.root y ↔ d3.root x = d3.root y) :=
  unite_transitive_commutative 3 (DSU.new 3) 0 1 2 Reachable.init (by decide) (by decide)
    (by decide)

/-- Witness of C18: on the chain state `find(3)` rewrites `parent[3]`, and the root
of 2 stays 0. -/
theorem find_keeps_partition_witness :
    ∃ d1 r, chainDSU.find 3 = some (d1, r) ∧ d1.size = chainDSU.size ∧
      ∃ rj, chainDSU.root 2 = some rj ∧ d1.root 2 = some rj :=
  find_keeps_partition 4 chainDSU 3 2 chainDSU_reachable (by decide) (by decide)

/-- Witness of C20: the chain state. -/
theorem find_terminates_on_forest_witness :
    chainDSU.parent.length = 4 ∧ Forest chainDSU.parent ∧ OnlySelfLoops chainDSU.parent :=
  ⟨(find_terminates_on_forest 4 chainDSU chainDSU_reachable).1,
    (find_terminates_on_forest 4 chainDSU chainDSU_reachable).2.1,
    (find_terminates_on_forest 4 chainDSU chainDSU_reachable).2.2.1⟩

/-! ## Dropped tokens and the scenarios -/

theorem normalize_nil_of_no_kept {s : List Nat} (h : ∀ c ∈ s, isalpha c = false ∧ c ≠ 39) :
    normalize s = [] := by
  rw [normalize_eq_spec, normalizeSpec, List.map_eq_nil_iff, List.filter_eq_nil_iff]
  intro c hc
  obtain ⟨h1, h2⟩ := h c hc
  simp only [isalpha, Bool.or_eq_false_iff, Bool.and_eq_false_iff, decide_eq_false_iff_not] at h1
  rw [decide_eq_true_eq]
  omega

theorem readStep_of_empty {s : List Nat} (h : normalize s = []) (v : Vocab) :
    readStep v s = v := by
  simp only [readStep, h, if_true]

theorem readInput_of_all_empty {tokens : List (List Nat)}
    (h : ∀ t ∈ tokens, normalize t = []) (v : Vocab) : tokens.foldl readStep v = v := by
  induction tokens with
  | nil => rfl
  | cons t ts ih =>
    rw [List.foldl_cons, readStep_of_empty (h t (List.mem_cons_self _ _))]
    exact ih (fun x hx => h x (List.mem_cons_of_mem _ hx))

/-- Counterexample to C11 as stated: the token `'` holds no alphabetic character, yet
it normalizes to the non-empty form `'`, which enters the vocabulary and the text
sequence. -/
theorem apostrophe_token_is_kept :
    (∀ c ∈ str "'", isalpha c = false) ∧ normalize (str "'") = str "'" ∧
      normalize (str "'") ≠ [] ∧ (readInput [str "'"]).wordlist = [str "'"] ∧
      (readInput [str "'"]).text_ids = [0] := by
  decide

/-- C11 (amended): a raw token that holds no alphabetic character and no apostrophe
normalizes to the empty form, and it contributes nothing to the vocabulary or the text
sequence: the input loop leaves its variables as they are, so the input with the token
and the input without it give the same `wordlist`, `word_to_id` and `text_ids`. -/
theorem token_without_letter_or_apostrophe_dropped (s : List Nat)
    (h : ∀ c ∈ s, isalpha c = false ∧ c ≠ 39) :
    normalize s = [] ∧ (∀ v, readStep v s = v) ∧
      ∀ pre suf, readInput (pre ++ s :: suf) = readInput (pre ++ suf) := by
  have hn := normalize_nil_of_no_kept h
  refine ⟨hn, readStep_of_empty hn, ?_⟩
  intro pre suf
  simp only [readInput, List.foldl_append, List.foldl_cons, readStep_of_empty hn]

/-- Witness of C11 (amended): the token `2024!` among the words of Scenario 2. -/
theorem token_without_letter_or_apostrophe_dropped_witness :
    (∀ c ∈ str "2024!", isalpha c = false ∧ c ≠ 39) ∧ normalize (str "2024!") = [] ∧
      readInput ([str "cat"] ++ str "2024!" :: [str "cats"]) =
        readInput ([str "cat"] ++ [str "cats"]) :=
  ⟨by decide, (token_without_letter_or_apostrophe_dropped (str "2024!") (by decide)).1,
    (token_without_letter_or_apostrophe_dropped (str "2024!") (by decide)).2.2 _ _⟩

/-- C15: Scenario 2.  On `2 cat cats dog cat` the vocabulary is `cat`, `cats`, `dog`;
`cat` and `cats` have the same root, whose cluster holds the positions 0, 1, 3 and has
count 3 and representative `cat`; `dog` is alone in its cluster, with count 0 and no
record; and the whole output is the single line `cat: 3`. -/
theorem scenario2_output :
    ∃ R, run 2 scenario2 = some R ∧
      R.vocab.wordlist = [str "cat", str "cats", str "dog"] ∧
      R.vocab.text_ids = [0, 1, 2, 0] ∧
      R.dsu.root 0 = some 1 ∧ R.dsu.root 1 = some 1 ∧ R.dsu.root 2 = some 2 ∧
      clusterPositions R.dsu R.vocab.text_ids 1 = [0, 1, 3] ∧
      R.positions.getD 1 [] = [0, 1, 3] ∧ R.count 1 = 3 ∧ R.rep 1 = str "cat" ∧
      clusterPositions R.dsu R.vocab.text_ids 2 = [2] ∧ R.count 2 = 0 ∧
      R.results = [GroupResult.mk (str "cat") 3] ∧
      main 2 scenario2 = some [str "cat: 3"] := by
  have hrun : run 2 scenario2 =
      some (Run.mk ⟨[str "cat", str "cats", str "dog"],
          [(str "cat", 0), (str "cats", 1), (str "dog", 2)], [0, 1, 2, 0]⟩
        ⟨[1, 1, 2], [1, 2, 1]⟩ [[], [0, 1, 3], [2]] [(1, 3)] [(1, str "cat")]
        [⟨str "cat", 3⟩]) := by
    decide
  exact ⟨_, hrun, by decide⟩

/-- C16: Scenario 3.  On `1 color colour color` the forms `color` and `colour` have
different roots; the cluster of `color` holds the positions 0 and 2, whose distance 2
exceeds `K = 1`, so its count is 0; and the output is empty. -/
theorem scenario3_output :
    ∃ R, run 1 scenario3 = some R ∧
      R.vocab.wordlist = [str "color", str "colour"] ∧ R.vocab.text_ids = [0, 1, 0] ∧
      R.dsu.root 0 = some 0 ∧ R.dsu.root 1 = some 1 ∧
      clusterPositions R.dsu R.vocab.text_ids 0 = [0, 2] ∧ ((2 : Int) - 0 > 1) ∧
      R.count 0 = 0 ∧ R.count 1 = 0 ∧ R.results = [] ∧
      main 1 scenario3 = some [] := by
  have hrun : run 1 scenario3 =
      some (Run.mk ⟨[str "color", str "colour"],
          [(str "color", 0), (str "colour", 1)], [0, 1, 0]⟩
        ⟨[0, 1], [1, 1]⟩ [[0, 2], [1]] [] [] []) := by
    decide
  exact ⟨_, hrun, by decide⟩

/-- C17: when there is no token, or every token normalizes to the empty form, the run
returns (no error) with an empty vocabulary, and `main` writes no line, whatever `K`. -/
theorem empty_vocabulary_no_output (K : Int) (tokens : List (List Nat))
    (h : ∀ t ∈ tokens, normalize t = []) :
    (readInput tokens).wordlist = [] ∧ (readInput tokens).text_ids = [] ∧
      main K tokens = some [] := by
  have hv : readInput tokens = Vocab.mk [] [] [] := readInput_of_all_empty h _
  refine ⟨by rw [hv], by rw [hv], ?_⟩
  simp [main, run, hv]

/-- Witness of C17: `K = 0` followed by no word. -/
theorem empty_vocabulary_no_output_witness :
    (∀ t ∈ ([] : List (List Nat)), normalize t = []) ∧ main 0 [] = some [] :=
  ⟨by decide, (empty_vocabulary_no_output 0 [] (by decide)).2.2⟩

/-! ## Bounds on the counts -/

theorem two_le_length_of_mem {l : List Nat} (hn : l.Nodup) {a b : Nat} (ha : a ∈ l)
    (hb : b ∈ l) (hab : a ≠ b) : 2 ≤ l.length := by
  match l, hn, ha, hb with
  | [], _, ha, _ => exact absurd ha (List.not_mem_nil _)
  | [x], _, ha, hb =>
    rw [List.mem_singleton] at ha hb
    exact absurd (ha.trans hb.symm) hab
  | _ :: _ :: _, _, _, _ => simp

theorem freqOf_two_le {K : Int} {pos : List Nat} (h : 0 < freqOf K pos) :
    2 ≤ freqOf K pos := by
  rw [freqOf_eq_filter] at h ⊢
  obtain ⟨k, hk⟩ := List.exists_mem_of_length_pos h
  have hk' := hk
  rw [List.mem_filter, List.mem_range] at hk'
  obtain ⟨hlt, hok⟩ := hk'
  have hnd : ((List.range pos.length).filter (okAt K pos)).Nodup :=
    List.Nodup.filter _ (List.nodup_range _)
  simp only [okAt, Bool.or_eq_true, decide_eq_true_eq] at hok
  rcases hok with ⟨h1, h2⟩ | ⟨h1, h2⟩
  · have hmem : k - 1 ∈ (List.range pos.length).filter (okAt K pos) := by
      rw [List.mem_filter, List.mem_range]
      refine ⟨by omega, ?_⟩
      simp only [okAt, Bool.or_eq_true, decide_eq_true_eq]
      right
      rw [show k - 1 + 1 = k by omega]
      exact ⟨by omega, h2⟩
    exact two_le_length_of_mem hnd hk hmem (by omega)
  · have hmem : k + 1 ∈ (List.range pos.length).filter (okAt K pos) := by
      rw [List.mem_filter, List.mem_range]
      refine ⟨by omega, ?_⟩
      simp only [okAt, Bool.or_eq_true, decide_eq_true_eq]
      left
      rw [show k + 1 - 1 = k by omega]
      exact ⟨by omega, h2⟩
    exact two_le_length_of_mem hnd hk hmem (by omega)

theorem freqOf_le_length (K : Int) (pos : List Nat) : freqOf K pos ≤ pos.length := by
  rw [freqOf_eq_filter]
  have := List.length_filter_le (okAt K pos) (List.range pos.length)
  rw [List.length_range] at this
  exact this

/-- C19: the run returns, and every record of `results` (every line `main` writes)
belongs to a cluster with root `r` whose count it carries; that count is at least 2
and at most the number of TextSequence positions of the cluster. -/
theorem output_counts_bounds (K : Int) (tokens : List (List Nat)) :
    ∃ R, run K tokens = some R ∧ main K tokens = some (R.results.map emitLine) ∧
      ∀ res ∈ R.results, ∃ r, r < R.vocab.wordlist.length ∧
        res = GroupResult.mk (R.rep r) (R.count r) ∧ 2 ≤ res.count ∧
        res.count ≤ (clusterPositions R.dsu R.vocab.text_ids r).length := by
  obtain ⟨R, hR, h⟩ := run_spec K tokens
  refine ⟨R, hR, main_eq hR, ?_⟩
  intro res hres
  obtain ⟨r, hr, hc, rfl⟩ := h.results_rep hres
  refine ⟨r, hr, rfl, ?_, ?_⟩
  · show 2 ≤ R.count r
    rw [h.count_eq hr] at hc ⊢
    exact freqOf_two_le hc
  · show R.count r ≤ _
    rw [h.count_eq hr, h.positions r hr]
    exact freqOf_le_length K _

/-- Witness of C19: on `1 b b a a` both records have count 2, the size of their
clusters. -/
theorem output_counts_bounds_witness :
    ∃ R, run 1 tieWords = some R ∧
      R.results = [GroupResult.mk (str "a") 2, GroupResult.mk (str "b") 2] ∧
      ∀ res ∈ R.results, 2 ≤ res.count := by
  obtain ⟨R, hR, _, h⟩ := output_counts_bounds 1 tieWords
  have hres : (run 1 tieWords).map Run.results =
      some [GroupResult.mk (str "a") 2, GroupResult.mk (str "b") 2] := by decide
  rw [hR] at hres
  refine ⟨R, hR, Option.some.inj hres, ?_⟩
  intro res hmem
  obtain ⟨_, _, _, h2, _⟩ := h res hmem
  exact h2

/-! ## The Vocabulary Index -/

theorem forms_append (pre : List (List Nat)) (t : List Nat) :
    forms (pre ++ [t]) = forms pre ++ (if normalize t = [] then [] else [normalize t]) := by
  unfold forms
  rw [List.map_append, List.filter_append]
  by_cases h : normalize t = []
  · simp [h]
  · simp [h]

theorem readStep_old {v : Vocab} {buf : List Nat} {id : Nat} (hw : normalize buf ≠ [])
    (hl : lookup (normalize buf) v.word_to_id = some id) :
    (readStep v buf).wordlist = v.wordlist ∧
      (readStep v buf).text_ids = v.text_ids ++ [id] := by
  simp only [readStep, hw, if_false, try_emplace, hl, Bool.false_eq_true, and_self]

theorem readStep_new {v : Vocab} {buf : List Nat} (hw : normalize buf ≠ [])
    (hl : lookup (normalize buf) v.word_to_id = none) :
    (readStep v buf).wordlist = v.wordlist ++ [normalize buf] ∧
      (readStep v buf).text_ids = v.text_ids ++ [v.wordlist.length] := by
  simp only [readStep, hw, if_false, try_emplace, hl, if_true, and_self]

theorem getD_append_last {α : Type} (l : List α) (a d : α) :
    (l ++ [a]).getD l.length d = a := by
  rw [List.getD_append_right _ _ _ _ (le_refl _), Nat.sub_self]
  rfl

theorem firstIndex_append_of_mem {w : List Nat} {F G : List (List Nat)} (h : w ∈ F) :
    firstIndex w (F ++ G) = firstIndex w F := by
  induction F with
  | nil => exact absurd h (List.not_mem_nil _)
  | cons x xs ih =>
    by_cases hx : x = w
    · simp [firstIndex, hx]
    · have hmem : w ∈ xs := by
        rcases List.mem_cons.1 h with e | e
        · exact absurd e.symm hx
        · exact e
      simp [firstIndex, hx, ih hmem]

theorem firstIndex_append_of_not_mem {w : List Nat} {F G : List (List Nat)} (h : w ∉ F) :
    firstIndex w (F ++ G) = F.length + firstIndex w G := by
  induction F with
  | nil => simp
  | cons x xs ih =>
    have hx : x ≠ w := fun e => h (e ▸ List.mem_cons_self _ _)
    have hmem : w ∉ xs := fun e => h (List.mem_cons_of_mem _ e)
    show (if x = w then 0 else firstIndex w (xs ++ G) + 1) = _
    rw [if_neg hx, ih hmem, List.length_cons]
    omega

theorem firstIndex_lt_length {w : List Nat} {F : List (List Nat)} (h : w ∈ F) :
    firstIndex w F < F.length := by
  induction F with
  | nil => exact absurd h (List.not_mem_nil _)
  | cons x xs ih =>
    by_cases hx : x = w
    · simp [firstIndex, hx]
    · have hmem : w ∈ xs := by
        rcases List.mem_cons.1 h with e | e
        · exact absurd e.symm hx
        · exact e
      have := ih hmem
      simp only [firstIndex, hx, if_false, List.length_cons]
      omega

theorem InputInv.step {F : List (List Nat)} {v : Vocab} (h : InputInv F v) (buf : List Nat) :
    InputInv (F ++ (if normalize buf = [] then [] else [normalize buf])) (readStep v buf) := by
  by_cases hw : normalize buf = []
  · rw [if_pos hw, List.append_nil, readStep_of_empty hw]
    exact h
  · rw [if_neg hw]
    have hv' := readStep_inv h.vocab buf
    have hmemF : ∀ i, i < v.wordlist.length → v.wordlist.getD i [] ∈ F :=
      fun i hi => (h.mem _).1 (getD_mem _ _ hi)
    cases hl : lookup (normalize buf) v.word_to_id with
    | some id =>
      obtain ⟨e1, e2⟩ := readStep_old hw hl
      have hid := (h.vocab.ids _ _).1 hl
      have hwin : normalize buf ∈ F := (h.mem _).1 (List.mem_iff_getElem?.2 ⟨id, hid⟩)
      refine ⟨hv', ?_, ?_, ?_, ?_⟩
      · intro w
        rw [e1, h.mem, List.mem_append, List.mem_singleton]
        constructor
        · exact Or.inl
        · rintro (hh | hh)
          · exact hh
          · exact hh ▸ hwin
      · intro i j hij hj
        rw [e1] at hj ⊢
        rw [firstIndex_append_of_mem (hmemF i (by omega)),
          firstIndex_append_of_mem (hmemF j hj)]
        exact h.order i j hij hj
      · rw [e2, List.length_append, List.length_append, h.text_len, List.length_singleton,
          List.length_singleton]
      · intro p hp
        rw [e1, e2]
        rw [List.length_append, List.length_singleton] at hp
        rcases Nat.lt_or_ge p F.length with hlt | hge
        · rw [List.getD_append _ _ _ _ (h.text_len ▸ hlt), List.getD_append _ _ _ _ hlt]
          exact h.text p hlt
        · have hpe : p = F.length := by omega
          subst hpe
          rw [getD_append_last]
          rw [← h.text_len, getD_append_last]
          exact hid
    | none =>
      obtain ⟨e1, e2⟩ := readStep_new hw hl
      have hnew : normalize buf ∉ v.wordlist := by
        intro hmem
        obtain ⟨i, hi⟩ := List.mem_iff_getElem?.1 hmem
        rw [← h.vocab.ids, hl] at hi
        exact Option.noConfusion hi
      have hnewF : normalize buf ∉ F := fun hh => hnew ((h.mem _).2 hh)
      refine ⟨hv', ?_, ?_, ?_, ?_⟩
      · intro w
        rw [e1, List.mem_append, List.mem_append, h.mem]
      · intro i j hij hj
        rw [e1] at hj ⊢
        rw [List.length_append, List.length_singleton] at hj
        have hi : i < v.wordlist.length := by omega
        rw [List.getD_append _ _ _ _ hi, firstIndex_append_of_mem (hmemF i hi)]
        rcases Nat.lt_or_ge j v.wordlist.length with hlt | hge
        · rw [List.getD_append _ _ _ _ hlt, firstIndex_append_of_mem (hmemF j hlt)]
          exact h.order i j hij hlt
        · have hje : j = v.wordlist.length := by omega
          subst hje
          rw [getD_append_last, firstIndex_append_of_not_mem hnewF]
          have := firstIndex_lt_length (hmemF i hi)
          omega
      · rw [e2, List.length_append, List.length_append, h.text_len, List.length_singleton,
          List.length_singleton]
      · intro p hp
        rw [e1, e2]
        rw [List.length_append, List.length_singleton] at hp
        rcases Nat.lt_or_ge p F.length with hlt | hge
        · rw [List.getD_append _ _ _ _ (h.text_len ▸ hlt), List.getD_append _ _ _ _ hlt]
          have hold := h.text p hlt
          rw [List.getElem?_append_left (List.getElem?_eq_some.1 hold).1]
          exact hold
        · have hpe : p = F.length := by omega
          subst hpe
          rw [getD_append_last]
          rw [← h.text_len, getD_append_last, List.getElem?_append_right (le_refl _)]
          simp

theorem readInput_inputInv (tokens : List (List Nat)) :
    InputInv (forms tokens) (readInput tokens) := by
  unfold readInput
  refine foldl_inv readStep (fun pre v => InputInv (forms pre) v) tokens _ ?_ ?_
  · exact ⟨⟨by simp [lookup], List.nodup_nil, by simp, by simp⟩, by simp [forms],
      fun i j _ hj => absurd hj (Nat.not_lt_zero _), rfl,
      fun p hp => absurd hp (Nat.not_lt_zero _)⟩
  · intro pre x suf s _ hI
    rw [forms_append]
    exact hI.step x

/-- C12: after the input loop, `wordlist` holds exactly the non-empty normalized tokens,
each once, in the order of their first occurrence (the form of a smaller id occurs
first earlier in the input), `text_ids` has one entry per non-empty normalized token,
each a valid id, and `wordlist[text_ids[p]]` is the `p`-th non-empty normalized
token. -/
theorem vocabulary_first_occurrence_order (tokens : List (List Nat)) :
    (readInput tokens).wordlist.Nodup ∧
      (∀ w, w ∈ (readInput tokens).wordlist ↔ w ∈ forms tokens) ∧
      (∀ i j, i < j → j < (readInput tokens).wordlist.length →
        firstIndex ((readInput tokens).wordlist.getD i []) (forms tokens) <
          firstIndex ((readInput tokens).wordlist.getD j []) (forms tokens)) ∧
      (readInput tokens).text_ids.length = (forms tokens).length ∧
      ∀ p, p < (forms tokens).length →
        (readInput tokens).text_ids.getD p 0 < (readInput tokens).wordlist.length ∧
        (readInput tokens).wordlist.getD ((readInput tokens).text_ids.getD p 0) [] =
          (forms tokens).getD p [] := by
  have h := readInput_inputInv tokens
  refine ⟨h.vocab.nodup, h.mem, h.order, h.text_len, ?_⟩
  intro p hp
  have := h.text p hp
  exact ⟨(List.getElem?_eq_some.1 this).1, getD_of_getElem? [] this⟩

/-- Witness of C12: on `Cat dog 42 cat! Dog's cat` the vocabulary is `cat`, `dog`,
`dog's` and the text sequence is 0, 1, 0, 2, 0. -/
theorem vocabulary_first_occurrence_order_witness :
    forms [str "Cat", str "dog", str "42", str "cat!", str "Dog's", str "cat"] =
        [str "cat", str "dog", str "cat", str "dog's", str "cat"] ∧
      (readInput [str "Cat", str "dog", str "42", str "cat!", str "Dog's", str "cat"]).wordlist =
        [str "cat", str "dog", str "dog's"] ∧
      (readInput [str "Cat", str "dog", str "42", str "cat!", str "Dog's", str "cat"]).text_ids =
        [0, 1, 0, 2, 0] ∧
      (readInput [str "Cat", str "dog", str "42", str "cat!", str "Dog's", str "cat"]).wordlist.Nodup :=
  ⟨by decide, by decide, by decide,
    (vocabulary_first_occurrence_order
      [str "Cat", str "dog", str "42", str "cat!", str "Dog's", str "cat"]).1⟩

end Solution
